import Mathlib

/-!
Verification of the LaunchFrame CLI variant-composition engine.

Shallow embedding of the JavaScript sources:
- `src/services/variant-config.js`   (choice resolution, variant selection)
- `src/utils/service-cache.js`       (sparse template cache)
- `src/utils/variable-replacer.js`   (placeholder substitution)
- the section-marker protocol (`replaceSection` / `hasSection`, required
  from `./section-replacer` by `src/utils/variant-processor.js`)
- `src/utils/variant-processor.js`   (section insertion and marker cleanup)

File contents are modelled as `List Char`; JavaScript string indices become
`Nat` positions; thrown exceptions become `Except String`; filesystem state
becomes explicit association lists.
-/

namespace LaunchFrame

/-! ## variant-config.js -/

/-- A (possibly partial) choice set, `{ tenancy?, userModel? }` in the JS
source.  `none` models an absent key. -/
structure Choices where
  tenancy : Option String
  userModel : Option String
deriving DecidableEq, Repr

namespace VariantConfig

/-- JavaScript truthiness test for an optional string field:
`undefined`/absent and the empty string are falsy. -/
def truthy : Option String → Bool
  | none => false
  | some s => s ≠ ""

/-- `getVariantsToApply` from `variant-config.js` (lines 411–439), translated
clause by clause.  `choices.tenancy === 'multi-tenant'` etc. become equality
tests on the optional fields; `!choices.userModel` becomes `!truthy`. -/
def getVariantsToApply (choices : Choices) : List String :=
  let isMultiTenant := choices.tenancy = some "multi-tenant"
  let isSingleTenant := choices.tenancy = some "single-tenant"
  let isB2B2C := choices.userModel = some "b2b2c"
  let isB2B := choices.userModel = some "b2b"
  if isMultiTenant ∧ isB2B2C then
    ["multi-tenant", "b2b2c", "b2b2c_multi-tenant"]
  else if isSingleTenant ∧ isB2B2C then
    ["b2b2c", "b2b2c_single-tenant"]
  else if isMultiTenant ∧ (isB2B ∨ truthy choices.userModel = false) then
    ["multi-tenant"]
  else if isSingleTenant ∧ truthy choices.userModel = false then
    ["single-tenant"]
  else
    []

/-- The `linkedTo` declarations of `VARIANT_CONFIG` (variant-config.js):
`backend` has none, `admin-portal` and `customers-portal` are linked to
`backend.tenancy`, `infrastructure` to `backend.userModel`.  Keys are listed
in the object-literal insertion order. -/
def configLinkedTo : List (String × Option String) :=
  [("backend", none),
   ("admin-portal", some "backend.tenancy"),
   ("customers-portal", some "backend.tenancy"),
   ("infrastructure", some "backend.userModel")]

/-- Split a character list on a separator character (`String.prototype.split`
with a single-character separator). -/
def splitCharAux (sep : Char) : List Char → List (List Char)
  | [] => [[]]
  | c :: cs =>
    let rest := splitCharAux sep cs
    if c = sep then [] :: rest
    else match rest with
      | [] => [[c]]
      | r :: rs => (c :: r) :: rs

/-- `linkedTo.split('.')` on a string. -/
def splitDot (s : String) : List String :=
  (splitCharAux '.' s.toList).map (fun l => ⟨l⟩)

/-- Projection `{ [linkedDimension]: backendChoices[linkedDimension] }` used
by `resolveVariantChoices` for a linked service. -/
def projectAxis (dim : String) (bc : Choices) : Choices :=
  if dim = "tenancy" then { tenancy := bc.tenancy, userModel := none }
  else if dim = "userModel" then { tenancy := none, userModel := bc.userModel }
  else { tenancy := none, userModel := none }

/-- Update one service's entry in the result map (JS object mutation). -/
def setChoices (m : List (String × Choices)) (svc : String)
    (f : Choices → Choices) : List (String × Choices) :=
  m.map (fun p => if p.1 = svc then (p.1, f p.2) else p)

/-- `resolveVariantChoices` from `variant-config.js` (lines 374–404):
backend gets the full choice set; each service with a `linkedTo` gets the
projection onto the linked dimension; then two special cases add the missing
axis for `admin-portal` (userModel) and `infrastructure` (tenancy). -/
def resolveVariantChoices (backendChoices : Choices) : List (String × Choices) :=
  let base := ("backend", backendChoices) ::
    (configLinkedTo.filterMap (fun p =>
      if p.1 = "backend" then none
      else match p.2 with
        | some linked =>
            match splitDot linked with
            | _ :: dim :: _ => some (p.1, projectAxis dim backendChoices)
            | _ => some (p.1, projectAxis "" backendChoices)
        | none => none))
  let withAdmin := setChoices base "admin-portal"
    (fun c => { c with userModel := backendChoices.userModel })
  setChoices withAdmin "infrastructure"
    (fun c => { c with tenancy := backendChoices.tenancy })

end VariantConfig

/-! ## service-cache.js -/

namespace ServiceCache

/-- Observable state of the on-disk cache: whether `<cacheDir>/.git` exists,
and the list reported by `git sparse-checkout list`. -/
structure CacheState where
  gitDir : Bool
  sparse : List String
deriving DecidableEq, Repr

/-- `[...new Set(xs)]`: deduplication keeping first occurrences, as a
JavaScript `Set` iterates in insertion order. -/
def jsDedup : List String → List String :=
  go []
where
  go (seen : List String) : List String → List String
    | [] => []
    | x :: xs => if x ∈ seen then go seen xs else x :: go (x :: seen) xs

/-- `initializeCache` success path: sparse clone plus
`git sparse-checkout init --cone`, which leaves an empty sparse set. -/
def initializeCache (_s : CacheState) : CacheState :=
  { gitDir := true, sparse := [] }

/-- `updateCache` success path: `git pull` does not change the sparse set. -/
def updateCache (s : CacheState) : CacheState := s

/-- `expandServices` (service-cache.js lines 98–131) success path: read the
current sparse list, union the requested services into it, and set the
result. -/
def expandServices (serviceNames : List String) (s : CacheState) : CacheState :=
  let currentServices := s.sparse
  let allServices := jsDedup (currentServices ++ serviceNames)
  { s with sparse := allServices }

/-- `clearCache`: removes the cache directory. -/
def clearCache (_s : CacheState) : CacheState :=
  { gitDir := false, sparse := [] }

/-- `ensureCacheReady` (service-cache.js lines 238–261) success path:
initialize if the cache does not exist, otherwise update; then expand. -/
def ensureCacheReady (requiredServices : List String) (s : CacheState) :
    CacheState :=
  let s' := if s.gitDir then updateCache s else initializeCache s
  expandServices requiredServices s'

/-- Steps of `initializeCache` that can fail, with the clone allowed to
leave a partial directory behind before the `catch` block runs. -/
structure InitEnv where
  cloneOk : Bool
  clonePartial : Bool
  sparseInitOk : Bool

/-- `initializeCache` (service-cache.js lines 38–68) with its failure
handling: on any error the `catch` block removes the cache directory
(`fs.remove(cacheDir)`) before rethrowing.  The returned `Bool` is whether
the cache directory exists afterwards. -/
def initializeCacheRun (env : InitEnv) (_dirExists : Bool) :
    Except String Unit × Bool :=
  if env.cloneOk then
    -- clone created the directory
    if env.sparseInitOk then
      (Except.ok (), true)
    else
      -- sparse-checkout init failed: catch removes cacheDir, rethrows
      (Except.error "Failed to initialize cache: sparse-checkout init", false)
  else
    -- clone failed, possibly leaving a partial directory (env.clonePartial);
    -- catch removes cacheDir, rethrows
    (Except.error "Failed to initialize cache: clone", false)

end ServiceCache

/-! ## variable-replacer.js

`replaceVariablesInFile` builds, for each placeholder, the regex
`(?<!\$)<escaped key>` with flag `g`, tests it, and if it matches replaces
all matches by the value.  The scanners below implement exactly this
left-to-right, non-overlapping global matching: a match is a position where
the key is a prefix of the remaining input and the previous *input*
character is not `'$'` (the lookbehind inspects the input string, never the
replacement text, and replacement text is not rescanned). -/

namespace VariableReplacer

/-- ECMAScript `GetSubstitution` for a string replacement with a regex
that has no capture groups and no named groups (the case of
variable-replacer.js line 64): in the replacement value, `$$` inserts a
dollar, `$&` the matched text, `$` followed by U+0060 (grave accent) the
part of the content before the match, `$` followed by U+0027 (apostrophe)
the part after it; any other `$` (including `$1`, `$<`, trailing `$`) is
left literal because there are no capture groups. -/
def getSub (matched before after : List Char) : List Char → List Char
  | [] => []
  | [c] => [c]
  | c1 :: c2 :: rest =>
    if c1 = '$' then
      if c2 = '$' then '$' :: getSub matched before after rest
      else if c2 = '&' then matched ++ getSub matched before after rest
      else if c2 = Char.ofNat 96 then
        before ++ getSub matched before after rest
      else if c2 = Char.ofNat 39 then
        after ++ getSub matched before after rest
      else '$' :: getSub matched before after (c2 :: rest)
    else c1 :: getSub matched before after (c2 :: rest)

/-- One global-replace pass of `content.replace(regex, value)` for the
regex `(?<!\$)key` (variable-replacer.js line 64/69).  `prev` is the input
character immediately before the current position (`none` at the start of
the file); `pre` is the input content before the current position, which
`getSub` needs because a string replacement value is interpreted by
`GetSubstitution` against the original content.  The matched text is
always `key` itself (the pattern is the escaped literal key behind a
zero-width lookbehind).  The empty-pattern edge (`key = []`) never arises
for `{{NAME}}` placeholder keys and is treated as matchless. -/
def goRep (key value : List Char) (prev : Option Char) (pre : List Char)
    (s : List Char) : List Char :=
  match s with
  | [] => []
  | c :: cs =>
    if h : key ≠ [] ∧ key.isPrefixOf (c :: cs) ∧ prev ≠ some '$' then
      getSub key pre ((c :: cs).drop key.length) value ++
        goRep key value (some (key.getLast h.1)) (pre ++ key)
          ((c :: cs).drop key.length)
    else
      c :: goRep key value (some c) (pre ++ [c]) cs
termination_by s.length
decreasing_by
  · have hk : 0 < key.length := List.length_pos.mpr h.1
    simp only [List.length_drop, List.length_cons]
    omega
  · simp only [List.length_cons]
    omega

/-- `regex.test(content)` for the regex `(?<!\$)key` (variable-replacer.js
line 66): is there any match? -/
def hasUng (key : List Char) (prev : Option Char) (s : List Char) : Bool :=
  match s with
  | [] => false
  | c :: cs =>
    (decide (key ≠ []) && key.isPrefixOf (c :: cs) &&
      decide (prev ≠ some '$')) || hasUng key (some c) cs

/-- `replaceVariablesInFile` (variable-replacer.js lines 51–90) on decoded
content: iterate over `Object.entries(variables)` in insertion order; for
each placeholder, if the guarded regex matches, replace all matches and
mark the file modified.  Returns the final content and the `modified` flag
(which is also whether the file is written back). -/
def replaceVariablesInFile (vars : List (List Char × List Char))
    (content : List Char) : List Char × Bool :=
  vars.foldl
    (fun acc kv =>
      if hasUng kv.1 none acc.1 then (goRep kv.1 kv.2 none [] acc.1, true)
      else acc)
    (content, false)

/-- A placeholder key token `{{NAME}}`. -/
def token (name : List Char) : List Char := '{' :: '{' :: (name ++ ['}', '}'])

/-- `$`-prefix of the previous character, as an `Option Char` update after
scanning a block `l`. -/
def lastO (prev : Option Char) (l : List Char) : Option Char :=
  match l.getLast? with
  | some c => some c
  | none => prev

/-- Content built from an alternation of non-token chunks and key
occurrences; `true` flags an occurrence guarded by a literal `$`. -/
def assemble (key : List Char) (occs : List (List Char × Bool))
    (fin : List Char) : List Char :=
  match occs with
  | [] => fin
  | p :: rest =>
      p.1 ++ (if p.2 then '$' :: key else key) ++ assemble key rest fin

/-- The same content after substituting every unguarded occurrence by the
value and keeping every guarded occurrence. -/
def assembleRes (key value : List Char) (occs : List (List Char × Bool))
    (fin : List Char) : List Char :=
  match occs with
  | [] => fin
  | p :: rest =>
      p.1 ++ (if p.2 then '$' :: key else value) ++ assembleRes key value rest fin

/-- The well-formedness conditions on one occurrence `(chunk, guarded)`:
the token does not occur anywhere inside the chunk (or straddling into the
occurrence), and an unguarded chunk does not end with `'$'`. -/
def GoodOcc (name : List Char) (p : List Char × Bool) : Prop :=
  (∀ i < p.1.length, ¬ token name <+:
      ((p.1 ++ (if p.2 then '$' :: token name else token name)).drop i)) ∧
  (p.2 = false → p.1.getLast? ≠ some '$')

end VariableReplacer

/-! ## section-replacer.js (required as `./section-replacer` by
variant-processor.js; `replaceSection` / `hasSection`) -/

namespace SectionReplacer

/-- `content.indexOf(pat)`: index of the first occurrence, `none` for the
JavaScript `-1`. -/
def firstIdx? (pat : List Char) (s : List Char) : Option Nat :=
  if pat.isPrefixOf s then some 0
  else
    match s with
    | [] => none
    | _ :: t => (firstIdx? pat t).map (· + 1)

/-- `content.includes(pat)` / `indexOf(pat) !== -1`. -/
def containsSub (pat s : List Char) : Bool :=
  (firstIdx? pat s).isSome

/-- The three comment styles tried by `replaceSection` and `hasSection`, in
their fallback order. -/
inductive MStyle where
  | slash
  | jsx
  | hash
deriving DecidableEq, Fintype

/-- `// NAME_START`, `{/* NAME_START */}`, `# NAME_START` (the template
literals of section-replacer.js lines 82–87, spelled as character lists). -/
def startMarker : MStyle → List Char → List Char
  | MStyle.slash, name =>
      ['/', '/', ' '] ++ name ++ ['_', 'S', 'T', 'A', 'R', 'T']
  | MStyle.jsx, name =>
      ['{', '/', '*', ' '] ++ name ++
        ['_', 'S', 'T', 'A', 'R', 'T', ' ', '*', '/', '}']
  | MStyle.hash, name =>
      ['#', ' '] ++ name ++ ['_', 'S', 'T', 'A', 'R', 'T']

/-- `// NAME_END`, `{/* NAME_END */}`, `# NAME_END`. -/
def endMarker : MStyle → List Char → List Char
  | MStyle.slash, name => ['/', '/', ' '] ++ name ++ ['_', 'E', 'N', 'D']
  | MStyle.jsx, name =>
      ['{', '/', '*', ' '] ++ name ++ ['_', 'E', 'N', 'D', ' ', '*', '/', '}']
  | MStyle.hash, name => ['#', ' '] ++ name ++ ['_', 'E', 'N', 'D']

/-- All six marker strings of a section name. -/
def allMarkers (name : List Char) : List (List Char) :=
  [startMarker MStyle.slash name, endMarker MStyle.slash name,
   startMarker MStyle.jsx name, endMarker MStyle.jsx name,
   startMarker MStyle.hash name, endMarker MStyle.hash name]

/-- `content.lastIndexOf('\n', k)`: the largest `j ≤ k` with a newline at
`j` (JavaScript clamps a negative `fromIndex` to `0`, which the `Nat`
subtraction at the call site reproduces). -/
def lastNlLe (s : List Char) : Nat → Option Nat
  | 0 => if s[0]? = some '\n' then some 0 else none
  | k + 1 =>
    if s[k + 1]? = some '\n' then some (k + 1) else lastNlLe s k

/-- `content.indexOf('\n', k)`: the smallest `j ≥ k` with a newline. -/
def firstNlGe (s : List Char) (k : Nat) : Option Nat :=
  (firstIdx? ['\n'] (s.drop k)).map (k + ·)

/-- The marker-lookup cascade of `replaceSection` (section-replacer.js
lines 89–102): take the `//` indices; if either is `-1`, overwrite BOTH
with the JSX indices; if either is still `-1`, overwrite both with the
`#` indices. -/
def findMarkers (name : List Char) (content : List Char) :
    Option Nat × Option Nat :=
  let p1 := (firstIdx? (startMarker MStyle.slash name) content,
             firstIdx? (endMarker MStyle.slash name) content)
  let p2 := if p1.1 = none ∨ p1.2 = none then
      (firstIdx? (startMarker MStyle.jsx name) content,
       firstIdx? (endMarker MStyle.jsx name) content)
    else p1
  if p2.1 = none ∨ p2.2 = none then
    (firstIdx? (startMarker MStyle.hash name) content,
     firstIdx? (endMarker MStyle.hash name) content)
  else p2

/-- `replaceSection` (section-replacer.js lines 78–125) on the file's
content: locate start/end markers via `findMarkers`; error if the final
try still misses one; otherwise replace from the beginning of the start
marker's line through the end of the end marker's line with `newContent`.
When the end marker's line has no terminating newline, `indexOf('\n')`
returns `-1` and `substring(-1 + 1)` is the whole content, which is
reproduced here verbatim. -/
def replaceSection (name : List Char) (newContent : List Char)
    (content : List Char) : Except String (List Char) :=
  match findMarkers name content with
  | (some startIndex, some endIndex) =>
    let lineStart :=
      match lastNlLe content (startIndex - 1) with
      | some j => j + 1
      | none => 0
    let before := content.take lineStart
    let after :=
      match firstNlGe content endIndex with
      | some j => content.drop (j + 1)
      | none => content
    Except.ok (before ++ newContent ++ after)
  | _ =>
    Except.error ("Section markers not found: " ++ String.mk name)

/-- A content laid out as: arbitrary prefix (newline-terminated when
nonempty), the start-marker line (`indent` before the marker), an
arbitrary replaced span `mid`, the end marker, the rest `eTail` of its
line, its newline, and the remaining lines `post`. -/
def markedContent (sigma : MStyle) (name pre indent mid eTail post : List Char) :
    List Char :=
  pre ++ indent ++ startMarker sigma name ++ mid ++ endMarker sigma name ++
    eTail ++ '\n' :: post

/-- `hasSection` (section-replacer.js lines 133–152) on the file's
content: does any comment style have both its start and end marker? -/
def hasSection (name : List Char) (content : List Char) : Bool :=
  let hasSlash := containsSub (startMarker MStyle.slash name) content &&
    containsSub (endMarker MStyle.slash name) content
  let hasJSX := containsSub (startMarker MStyle.jsx name) content &&
    containsSub (endMarker MStyle.jsx name) content
  let hasHash := containsSub (startMarker MStyle.hash name) content &&
    containsSub (endMarker MStyle.hash name) content
  hasSlash || hasJSX || hasHash

end SectionReplacer

/-! ## variant-processor.js: section insertion -/

namespace VariantProcessor

open SectionReplacer

/-- A filesystem fragment: association list from path to file content. -/
def Fs : Type := List (String × List Char)

/-- `fs.pathExists` / `fs.readFile` on the fragment. -/
def fsGet (fs : Fs) (p : String) : Option (List Char) :=
  List.lookup p fs

/-- `fs.writeFile` to an existing path. -/
def fsSet (fs : Fs) (p : String) (c : List Char) : Fs :=
  fs.map (fun q => if q.1 = p then (p, c) else q)

/-- `path.basename`: the last `/`-separated segment. -/
def basename (p : String) : String :=
  ⟨((VariantConfig.splitCharAux '/' p.toList).getLast?).getD []⟩

/-- The inner `for (const sectionName of sectionNames)` loop of
`insertVariantSections` (variant-processor.js lines 272–292): each
iteration looks up the section content file
`<basename>.<sectionName>`, skipping with a warning when it is missing,
and otherwise calls `replaceSection` inside a `try`/`catch` whose `catch`
records a warning and CONTINUES with the next section name. -/
def processNames (secFs : List (String × List Char)) (target : String)
    (names : List String) (st : Fs × List String) : Fs × List String :=
  match names with
  | [] => st
  | n :: rest =>
    let sectionFileName := basename target ++ "." ++ n
    match List.lookup sectionFileName secFs with
    | none =>
        processNames secFs target rest
          (st.1, st.2 ++ ["Section file not found: " ++ sectionFileName])
    | some sectionContent =>
        match fsGet st.1 target with
        | none =>
            -- fs.readFile throws inside the try; the catch warns and
            -- continues (cannot happen: existence is pre-checked)
            processNames secFs target rest
              (st.1, st.2 ++ ["Could not read: " ++ target])
        | some content =>
            match replaceSection n.toList sectionContent content with
            | Except.error e =>
                -- catch: console.warn("Could not insert section", e)
                processNames secFs target rest (st.1, st.2 ++ [e])
            | Except.ok c' =>
                processNames secFs target rest (fsSet st.1 target c', st.2)

/-- `insertVariantSections` (variant-processor.js lines 250–294): for each
`(targetFile, sectionNames)` pair, skip with a warning when the target
does not exist, else run the section loop.  The `Except` result type
records that a thrown error would abort the service's composition; the
body never produces one because every `replaceSection` failure is caught
per-section.  Returns the updated filesystem and the warning log. -/
def insertVariantSections (sections : List (String × List String))
    (secFs : List (String × List Char)) (dest : Fs) :
    Except String (Fs × List String) :=
  Except.ok (sections.foldl
    (fun st fp =>
      match fsGet st.1 fp.1 with
      | none => (st.1, st.2 ++ ["Target file not found: " ++ fp.1])
      | some _ => processNames secFs fp.1 fp.2 st)
    (dest, []))

/-! ### variant-processor.js: marker cleanup (`cleanupSectionMarkers`)

For each section name of an unapplied variant, the source runs three
global, multiline, lazy regex replaces (variant-processor.js lines
147–181), one per comment style:

`^[ \t]*<start>\n([\s\S]*?)^[ \t]*<end>\n?`  replaced by  `$1`

The scanners below implement exactly these semantics over `List Char`:
a match must begin at a line start; the start line is indentation plus
the start marker plus a newline; the lazy group ends at the earliest
following line start whose line begins with indentation plus the end
marker; the optional newline after the end marker is consumed when
present; the replacement is the captured group; scanning resumes after
the match (replacement text is never rescanned). -/

/-- `[ \t]`, the indentation class of the cleanup regexes. -/
def spaceTab (c : Char) : Bool := c = ' ' || c = '\t'

/-- Match `[ \t]*<sM>\n` at position `s` (a line start); return the rest. -/
def matchStart (sM s : List Char) : Option (List Char) :=
  let t := s.dropWhile spaceTab
  if sM.isPrefixOf t then
    match t.drop sM.length with
    | '\n' :: r => some r
    | _ => none
  else none

/-- Match `[ \t]*<eM>\n?` at a line start; the flag tells whether the
optional newline was consumed. -/
def matchEnd (eM s : List Char) : Option (Bool × List Char) :=
  let t := s.dropWhile spaceTab
  if eM.isPrefixOf t then
    match t.drop eM.length with
    | '\n' :: r => some (true, r)
    | r => some (false, r)
  else none

theorem length_dropWhile_le (p : Char → Bool) (l : List Char) :
    (l.dropWhile p).length ≤ l.length := by
  induction l with
  | nil => simp
  | cons c t ih =>
    rw [List.dropWhile_cons]
    by_cases h : p c
    · rw [if_pos h]; simp only [List.length_cons]; omega
    · rw [if_neg h]

theorem length_takeWhile_le (p : Char → Bool) (l : List Char) :
    (l.takeWhile p).length ≤ l.length := by
  induction l with
  | nil => simp
  | cons c t ih =>
    rw [List.takeWhile_cons]
    by_cases h : p c
    · rw [if_pos h]; simp only [List.length_cons]; omega
    · rw [if_neg h]; simp

theorem matchStart_length {sM s r : List Char}
    (h : matchStart sM s = some r) : r.length < s.length := by
  unfold matchStart at h
  by_cases hp : sM.isPrefixOf (s.dropWhile spaceTab) = true
  · rw [if_pos hp] at h
    cases hd : (s.dropWhile spaceTab).drop sM.length with
    | nil => rw [hd] at h; exact absurd h (by simp)
    | cons c t =>
      rw [hd] at h
      by_cases hc : c = '\n'
      · subst hc
        simp only [Option.some_inj] at h
        subst h
        have h1 := congrArg List.length hd
        have h2 : (s.dropWhile spaceTab).length ≤ s.length :=
          length_dropWhile_le _ _
        simp only [List.length_drop, List.length_cons] at h1
        omega
      · rw [show (match (c :: t : List Char) with
          | '\n' :: r => some r
          | _ => none) = (none : Option (List Char)) from by
            cases t <;> simp [hc]] at h
        exact absurd h (by simp)
  · rw [if_neg hp] at h
    exact absurd h (by simp)

theorem matchEnd_length {eM s : List Char} {b : Bool} {r : List Char}
    (h : matchEnd eM s = some (b, r)) : r.length ≤ s.length := by
  unfold matchEnd at h
  by_cases hp : eM.isPrefixOf (s.dropWhile spaceTab) = true
  · rw [if_pos hp] at h
    have h2 : (s.dropWhile spaceTab).length ≤ s.length :=
      length_dropWhile_le _ _
    cases hd : (s.dropWhile spaceTab).drop eM.length with
    | nil =>
      rw [hd] at h
      simp only [Option.some_inj, Prod.mk.injEq] at h
      rw [← h.2]
      simp
    | cons c t =>
      rw [hd] at h
      have h1 := congrArg List.length hd
      simp only [List.length_drop, List.length_cons] at h1
      by_cases hc : c = '\n'
      · subst hc
        simp only [Option.some_inj, Prod.mk.injEq] at h
        rw [← h.2]
        omega
      · rw [show (match (c :: t : List Char) with
          | '\n' :: r => some (true, r)
          | r => some (false, r)) = some (false, c :: t) from by
            cases t <;> simp [hc]] at h
        simp only [Option.some_inj, Prod.mk.injEq] at h
        rw [← h.2]
        simp only [List.length_cons]
        omega
  · rw [if_neg hp] at h
    exact absurd h (by simp)

/-- The lazy `([\s\S]*?)^[ \t]*<eM>\n?` search: from a line start, find
the earliest following line start where the end pattern matches; return
the captured lines, the newline flag and the rest. -/
def findEnd (eM : List Char) (s : List Char) :
    Option (List Char × Bool × List Char) :=
  match matchEnd eM s with
  | some (b, r) => some ([], b, r)
  | none =>
    let line := s.takeWhile (fun c => c ≠ '\n')
    match hd : s.drop line.length with
    | [] => none
    | _ :: rest =>
      match findEnd eM rest with
      | some (cap, b, r) => some (line ++ '\n' :: cap, b, r)
      | none => none
termination_by s.length
decreasing_by
  have h1 := congrArg List.length hd
  have h2 : (s.takeWhile (fun c => c ≠ '\n')).length ≤ s.length :=
    length_takeWhile_le _ _
  simp only [List.length_drop, List.length_cons] at h1
  omega

theorem findEnd_length (eM : List Char) : ∀ (n : Nat) (s : List Char),
    s.length ≤ n → ∀ cap b r, findEnd eM s = some (cap, b, r) →
    r.length ≤ s.length := by
  intro n
  induction n with
  | zero =>
    intro s hs cap b r h
    have hnil : s = [] := List.eq_nil_of_length_eq_zero (by omega)
    subst hnil
    rw [findEnd] at h
    split at h
    · rename_i b' r' hm
      simp only [Option.some_inj, Prod.mk.injEq] at h
      have := matchEnd_length hm
      rw [← h.2.2]
      simpa using this
    · simp only [] at h
      split at h
      · exact absurd h (by simp)
      · split at h
        · rename_i cap' b' r' hf
          rename_i x rest hd _
          exact absurd (congrArg List.length hd) (by simp)
        · exact absurd h (by simp)
  | succ n ih =>
    intro s hs cap b r h
    rw [findEnd] at h
    split at h
    · rename_i b' r' hm
      simp only [Option.some_inj, Prod.mk.injEq] at h
      rw [← h.2.2]
      exact matchEnd_length hm
    · simp only [] at h
      split at h
      · exact absurd h (by simp)
      · split at h
        · rename_i hhead rest hd hx cap' b' r' hf
          simp only [Option.some_inj, Prod.mk.injEq] at h
          have hlen : rest.length < s.length := by
            have h1 := congrArg List.length hd
            have h2 : (s.takeWhile (fun c => c ≠ '\n')).length ≤ s.length :=
              length_takeWhile_le _ _
            simp only [List.length_drop, List.length_cons] at h1
            omega
          have := ih rest (by omega) cap' b' r' hf
          rw [← h.2.2]
          omega
        · exact absurd h (by simp)

/-- One global replace of the cleanup pattern for the pair `(sM, eM)`:
scan the content line by line; at each line start try to match the whole
pattern; on a match emit the captured group and resume after the match,
otherwise emit the line and move on. -/
def stripGo (sM eM : List Char) (s : List Char) : List Char :=
  match hms : matchStart sM s with
  | some afterStart =>
    match hfe : findEnd eM afterStart with
    | some (cap, true, r) => cap ++ stripGo sM eM r
    | some (cap, false, r) =>
      -- the optional newline was not consumed (junk after the end
      -- marker, or end of file): scanning resumes mid-line, so the next
      -- possible match site is the next line start
      let line := r.takeWhile (fun c => c ≠ '\n')
      match hd : r.drop line.length with
      | [] => cap ++ r
      | _ :: rest => cap ++ line ++ '\n' :: stripGo sM eM rest
    | none =>
      -- no end-marker line below: no match can begin at this line
      let line := s.takeWhile (fun c => c ≠ '\n')
      match hd : s.drop line.length with
      | [] => s
      | _ :: rest => line ++ '\n' :: stripGo sM eM rest
  | none =>
    let line := s.takeWhile (fun c => c ≠ '\n')
    match hd : s.drop line.length with
    | [] => s
    | _ :: rest => line ++ '\n' :: stripGo sM eM rest
termination_by s.length
decreasing_by
  · have h1 := matchStart_length hms
    have h2 := findEnd_length eM afterStart.length afterStart
      (le_refl _) _ _ _ hfe
    omega
  · have h1 := matchStart_length hms
    have h2 := findEnd_length eM afterStart.length afterStart
      (le_refl _) _ _ _ hfe
    have h3 := congrArg List.length hd
    have h4 : (r.takeWhile (fun c => c ≠ '\n')).length ≤ r.length :=
      length_takeWhile_le _ _
    simp only [List.length_drop, List.length_cons] at h3
    omega
  · have h3 := congrArg List.length hd
    have h4 : (s.takeWhile (fun c => c ≠ '\n')).length ≤ s.length :=
      length_takeWhile_le _ _
    simp only [List.length_drop, List.length_cons] at h3
    omega
  · have h3 := congrArg List.length hd
    have h4 : (s.takeWhile (fun c => c ≠ '\n')).length ≤ s.length :=
      length_takeWhile_le _ _
    simp only [List.length_drop, List.length_cons] at h3
    omega

/-- One section name's cleanup (variant-processor.js lines 147–181):
apply the `//` pattern, then the JSX pattern, then the `#` pattern. -/
def stripName (name : List Char) (c : List Char) : List Char :=
  stripGo (SectionReplacer.startMarker SectionReplacer.MStyle.hash name)
    (SectionReplacer.endMarker SectionReplacer.MStyle.hash name)
    (stripGo (SectionReplacer.startMarker SectionReplacer.MStyle.jsx name)
      (SectionReplacer.endMarker SectionReplacer.MStyle.jsx name)
      (stripGo (SectionReplacer.startMarker SectionReplacer.MStyle.slash name)
        (SectionReplacer.endMarker SectionReplacer.MStyle.slash name) c))

/-- The per-file loop of `cleanupSectionMarkers` (lines 147–181): strip
each unapplied section name in turn on the evolving content. -/
def cleanupFile (names : List (List Char)) (c : List Char) : List Char :=
  names.foldl (fun c n => stripName n c) c

/-- Rebuild a file from its lines (`'\n'`-separated; a trailing newline
shows up as a final empty line). -/
def joinl : List (List Char) → List Char
  | [] => []
  | [l] => l
  | l :: ls => l ++ '\n' :: joinl ls

/-- Join where every listed line is newline-terminated. -/
def joinlT : List (List Char) → List Char
  | [] => []
  | l :: ls => l ++ '\n' :: joinlT ls

/-- Occurrence discipline for one marker: any line containing it is
exactly an indented marker line, and at most one line contains it. -/
def GoodPair (sM eM : List Char) (ls : List (List Char)) : Prop :=
  (∀ l ∈ ls, (SectionReplacer.containsSub sM l = true →
      l.dropWhile spaceTab = sM) ∧
    (SectionReplacer.containsSub eM l = true → l.dropWhile spaceTab = eM)) ∧
  ls.countP (fun l => SectionReplacer.containsSub sM l) ≤ 1 ∧
  ls.countP (fun l => SectionReplacer.containsSub eM l) ≤ 1

/-- No line of the file contains a newline character. -/
def NlFree (ls : List (List Char)) : Prop := ∀ l ∈ ls, ∀ c ∈ l, c ≠ '\n'

/-- Well-formed file for a set of section names: newline-free lines and
occurrence discipline for all six markers of each name. -/
def GoodFile (names : List (List Char)) (ls : List (List Char)) : Prop :=
  NlFree ls ∧ ∀ n ∈ names, (∀ c ∈ n, c ≠ '\n') ∧
    ∀ σ : SectionReplacer.MStyle,
      GoodPair (SectionReplacer.startMarker σ n)
        (SectionReplacer.endMarker σ n) ls

/-- The `(start, end)` marker pairs tried by one name's cleanup, in the
order of variant-processor.js lines 151–181: `//`, then JSX, then `#`. -/
def stylePairs (name : List Char) : List (List Char × List Char) :=
  [(startMarker MStyle.slash name, endMarker MStyle.slash name),
   (startMarker MStyle.jsx name, endMarker MStyle.jsx name),
   (startMarker MStyle.hash name, endMarker MStyle.hash name)]

/-- All marker pairs attempted by `cleanupFile`, in execution order. -/
def pairsOf : List (List Char) → List (List Char × List Char)
  | [] => []
  | n :: ns => stylePairs n ++ pairsOf ns

/-- `cleanupFile` reorganised as a single fold of `stripGo` over marker
pairs. -/
def stripPairs (ps : List (List Char × List Char)) (c : List Char) :
    List Char :=
  ps.foldl (fun c p => stripGo p.1 p.2 c) c

/-- No line containing the start marker is followed, strictly later in
the file, by a line containing the end marker: the cleanup pattern for
this pair cannot match anywhere. -/
def NoMatch (sM eM : List Char) : List (List Char) → Prop
  | [] => True
  | l :: ls => (SectionReplacer.containsSub sM l = true →
      ∀ q ∈ ls, SectionReplacer.containsSub eM q = false) ∧ NoMatch sM eM ls

end VariantProcessor

end LaunchFrame

namespace LaunchFrame

open VariantConfig ServiceCache

/-! ### Helper lemmas for the cache model -/

theorem mem_jsDedup_go (l : List String) : ∀ (seen : List String) (x : String),
    x ∈ jsDedup.go seen l ↔ x ∈ l ∧ x ∉ seen := by
  induction l with
  | nil => intro seen x; simp [jsDedup.go]
  | cons y ys ih =>
    intro seen x
    by_cases hy : y ∈ seen
    · rw [jsDedup.go, if_pos hy, ih]
      simp only [List.mem_cons]
      constructor
      · rintro ⟨h1, h2⟩; exact ⟨Or.inr h1, h2⟩
      · rintro ⟨rfl | h1, h2⟩
        · exact absurd hy h2
        · exact ⟨h1, h2⟩
    · rw [jsDedup.go, if_neg hy]
      simp only [List.mem_cons, ih, List.mem_cons]
      constructor
      · rintro (rfl | ⟨h1, h2⟩)
        · exact ⟨Or.inl rfl, hy⟩
        · exact ⟨Or.inr h1, fun hx => h2 (Or.inr hx)⟩
      · rintro ⟨rfl | h1, h2⟩
        · exact Or.inl rfl
        · by_cases hxy : x = y
          · exact Or.inl hxy
          · exact Or.inr ⟨h1, fun hx => Or.elim hx hxy h2⟩

theorem mem_jsDedup (l : List String) (x : String) :
    x ∈ jsDedup l ↔ x ∈ l := by
  rw [jsDedup, mem_jsDedup_go]
  simp

theorem mem_expandServices (names : List String) (s : CacheState) (x : String) :
    x ∈ (expandServices names s).sparse ↔ x ∈ s.sparse ∨ x ∈ names := by
  simp [expandServices, mem_jsDedup]

theorem gitDir_ensureCacheReady (names : List String) (s : CacheState) :
    (ensureCacheReady names s).gitDir = true := by
  rw [ensureCacheReady]
  by_cases h : s.gitDir <;>
    simp [h, updateCache, initializeCache, expandServices]

theorem mem_ensureCacheReady (names : List String) (s : CacheState)
    (x : String) :
    x ∈ (ensureCacheReady names s).sparse ↔
      (s.gitDir = true ∧ x ∈ s.sparse) ∨ x ∈ names := by
  rw [ensureCacheReady]
  by_cases h : s.gitDir <;>
    simp [h, updateCache, initializeCache, mem_expandServices]

/-! ### Helper lemmas for the placeholder scanner -/

open VariableReplacer

theorem prefix_take_eq {A B : List Char} (h : A <+: B) {n : Nat}
    (hn : n ≤ A.length) : B.take n = A.take n := by
  obtain ⟨t, rfl⟩ := h
  rw [List.take_append_eq_append_take, Nat.sub_eq_zero_of_le hn,
    List.take_zero, List.append_nil]

theorem prefix_of_prefix_drop {key X Y : List Char} (hXY : X <+: Y) (i : Nat)
    (hlen : key.length ≤ (X.drop i).length) (h : key <+: Y.drop i) :
    key <+: X.drop i := by
  have hd : X.drop i <+: Y.drop i := hXY.drop i
  have htake : (Y.drop i).take key.length = (X.drop i).take key.length :=
    prefix_take_eq hd hlen
  rw [List.prefix_iff_eq_take] at h
  rw [List.prefix_iff_eq_take, ← htake]
  exact h

theorem not_prefix_drop_of_lt {key z : List Char} (hk : key ≠ [])
    (h : ∀ i < z.length, ¬ key <+: z.drop i) : ∀ i, ¬ key <+: z.drop i := by
  intro i hp
  by_cases hi : i < z.length
  · exact h i hi hp
  · rw [List.drop_eq_nil_of_le (le_of_not_lt hi)] at hp
    exact hk (List.prefix_nil.mp hp)

theorem lastO_cons (prev : Option Char) (c : Char) (l : List Char) :
    lastO prev (c :: l) = lastO (some c) l := by
  cases l with
  | nil => simp [lastO]
  | cons d l' =>
    show lastO prev (c :: d :: l') = lastO (some c) (d :: l')
    unfold lastO
    rw [List.getLast?_cons_cons]
    cases hx : (d :: l').getLast? with
    | none => simp at hx
    | some a => rfl

theorem goRep_skip (key value : List Char) :
    ∀ (l : List Char) (rest : List Char) (prev : Option Char)
      (pre : List Char),
    (∀ i < l.length, ¬ key <+: ((l ++ rest).drop i)) →
    goRep key value prev pre (l ++ rest) =
      l ++ goRep key value (lastO prev l) (pre ++ l) rest := by
  intro l
  induction l with
  | nil => intro rest prev pre _; simp [lastO]
  | cons c l' ih =>
    intro rest prev pre h
    have h0 : ¬ key <+: (c :: (l' ++ rest)) := by
      have := h 0 (by simp)
      simpa using this
    rw [List.cons_append, goRep]
    rw [dif_neg]
    · rw [ih rest (some c) (pre ++ [c]) (fun i hi => by
        have := h (i + 1) (by simpa using Nat.succ_lt_succ hi)
        simpa using this)]
      rw [lastO_cons]
      simp
    · rintro ⟨hk, hpre, _⟩
      exact h0 (List.isPrefixOf_iff_prefix.mp hpre)

theorem hasUng_skip (key : List Char) :
    ∀ (l : List Char) (rest : List Char) (prev : Option Char),
    (∀ i < l.length, ¬ key <+: ((l ++ rest).drop i)) →
    hasUng key prev (l ++ rest) = hasUng key (lastO prev l) rest := by
  intro l
  induction l with
  | nil => intro rest prev _; simp [lastO]
  | cons c l' ih =>
    intro rest prev h
    have h0 : ¬ key <+: (c :: (l' ++ rest)) := by
      have := h 0 (by simp)
      simpa using this
    rw [List.cons_append, hasUng]
    have hpre : key.isPrefixOf (c :: (l' ++ rest)) = false := by
      by_contra hc
      exact h0 (List.isPrefixOf_iff_prefix.mp (by
        revert hc
        cases key.isPrefixOf (c :: (l' ++ rest)) <;> simp))
    rw [hpre]
    simp only [Bool.and_false, Bool.false_and, Bool.false_or]
    rw [ih rest (some c) (fun i hi => by
      have := h (i + 1) (by simpa using Nat.succ_lt_succ hi)
      simpa using this)]
    rw [lastO_cons]

theorem token_ne_nil (name : List Char) : token name ≠ [] := by
  simp [token]

theorem token_length (name : List Char) :
    (token name).length = name.length + 4 := by
  simp [token]

theorem prefix_getElem? {A B : List Char} (h : A <+: B) {i : Nat}
    (hi : i < A.length) : B[i]? = A[i]? := by
  obtain ⟨t, rfl⟩ := h
  exact List.getElem?_append_left hi

theorem token_getElem?_zero (name : List Char) :
    (token name)[0]? = some '{' := List.getElem?_cons_zero

theorem token_getElem?_one (name : List Char) :
    (token name)[1]? = some '{' := by
  show ('{' :: ('{' :: (name ++ ['}', '}'])))[1]? = some '{'
  rw [List.getElem?_cons_succ, List.getElem?_cons_zero]

theorem token_getElem?_big {name : List Char}
    (hname : ∀ c ∈ name, c ≠ '{' ∧ c ≠ '}') (k : Nat) (h2 : 2 ≤ k)
    (hk : k < (token name).length) : (token name)[k]? ≠ some '{' := by
  obtain ⟨k', rfl⟩ : ∃ k', k = k' + 2 := ⟨k - 2, by omega⟩
  have he : (token name)[k' + 2]? = (name ++ ['}', '}'])[k']? := by
    show ('{' :: ('{' :: (name ++ ['}', '}'])))[k' + 2]? = _
    rw [List.getElem?_cons_succ, List.getElem?_cons_succ]
  rw [he]
  by_cases hk' : k' < name.length
  · rw [List.getElem?_append_left hk']
    intro hc
    exact (hname '{' (List.getElem?_mem hc)).1 rfl
  · rw [List.getElem?_append_right (le_of_not_lt hk')]
    rw [token_length] at hk
    have : k' - name.length = 0 ∨ k' - name.length = 1 := by omega
    rcases this with h | h <;> rw [h] <;> decide

theorem token_selfOverlap {name : List Char}
    (hname : ∀ c ∈ name, c ≠ '{' ∧ c ≠ '}') (j : Nat) (rest : List Char)
    (hj : 0 < j) (hjl : j < (token name).length) :
    ¬ token name <+: ((token name ++ rest).drop j) := by
  intro hpre
  have hdrop : (token name ++ rest).drop j = (token name).drop j ++ rest := by
    rw [List.drop_append_eq_append_drop, Nat.sub_eq_zero_of_le (le_of_lt hjl),
      List.drop_zero]
  rw [hdrop] at hpre
  have hlen0 : 0 < ((token name).drop j).length := by
    rw [List.length_drop]; omega
  have e0 : ((token name).drop j ++ rest)[0]? = (token name)[j]? := by
    rw [List.getElem?_append_left hlen0, List.getElem?_drop, Nat.add_zero]
  have p0 : ((token name).drop j ++ rest)[0]? = (token name)[0]? :=
    prefix_getElem? hpre (by rw [token_length]; omega)
  by_cases hj1 : j = 1
  · subst hj1
    have hlen1 : 1 < ((token name).drop 1).length := by
      rw [List.length_drop, token_length]; omega
    have e1 : ((token name).drop 1 ++ rest)[1]? = (token name)[2]? := by
      rw [List.getElem?_append_left hlen1, List.getElem?_drop]
    have p1 : ((token name).drop 1 ++ rest)[1]? = (token name)[1]? :=
      prefix_getElem? hpre (by rw [token_length]; omega)
    refine token_getElem?_big hname 2 (le_refl 2)
      (by rw [token_length]; omega) ?_
    rw [← e1, p1, token_getElem?_one]
  · refine token_getElem?_big hname j (by omega) hjl ?_
    rw [← e0, p0, token_getElem?_zero]

theorem token_getLast (name : List Char) (h : token name ≠ []) :
    (token name).getLast h = '}' := by
  have h1 : (token name).getLast? = some '}' := by
    rw [show token name = ('{' :: '{' :: (name ++ ['}'])) ++ ['}'] by
      simp [token]]
    exact List.getLast?_concat _
  have h2 := List.getLast?_eq_getLast (token name) h
  rw [h1] at h2
  exact (Option.some_inj.mp h2).symm

theorem goRep_guard (name value rest : List Char) (prev : Option Char)
    (pre : List Char)
    (hname : ∀ c ∈ name, c ≠ '{' ∧ c ≠ '}') :
    goRep (token name) value prev pre ('$' :: (token name ++ rest)) =
      '$' :: (token name ++ goRep (token name) value (some '}')
        (pre ++ '$' :: token name) rest) := by
  rw [goRep, dif_neg]
  swap
  · rintro ⟨_, hpre, _⟩
    obtain ⟨t, ht⟩ := List.isPrefixOf_iff_prefix.mp hpre
    have h0 : (token name ++ t)[0]? = some '$' := by
      rw [ht]; exact List.getElem?_cons_zero
    rw [List.getElem?_append_left (by rw [token_length]; omega),
      token_getElem?_zero] at h0
    exact absurd (Option.some_inj.mp h0) (by decide)
  congr 1
  show goRep (token name) value (some '$') (pre ++ ['$'])
      (token name ++ rest) =
    token name ++ goRep (token name) value (some '}')
      (pre ++ '$' :: token name) rest
  rw [show (token name ++ rest) =
    '{' :: (('{' :: (name ++ ['}', '}'])) ++ rest) from rfl]
  rw [goRep, dif_neg]
  swap
  · rintro ⟨_, _, hguard⟩
    exact hguard rfl
  rw [goRep_skip (token name) value ('{' :: (name ++ ['}', '}'])) rest
    (some '{') ((pre ++ ['$']) ++ ['{']) ?hskip]
  case hskip =>
    intro i hi
    have hrw : (('{' :: (name ++ ['}', '}'])) ++ rest).drop i =
        (token name ++ rest).drop (i + 1) := by
      rw [show (token name ++ rest) =
        '{' :: (('{' :: (name ++ ['}', '}'])) ++ rest) from rfl,
        List.drop_succ_cons]
    rw [hrw]
    refine token_selfOverlap hname (i + 1) rest (by omega) ?_
    simp only [List.length_cons, List.length_append, List.length_nil] at hi
    rw [token_length]
    omega
  have hlast : lastO (some '{') ('{' :: (name ++ ['}', '}'])) = some '}' := by
    unfold lastO
    rw [show ('{' :: (name ++ ['}', '}'])) =
      ('{' :: (name ++ ['}'])) ++ ['}'] by simp, List.getLast?_concat]
  rw [hlast]
  simp [token]

theorem goRep_unguard (name value rest : List Char) (prev : Option Char)
    (pre : List Char) (hprev : prev ≠ some '$')
    (hval : ∀ m b a : List Char, getSub m b a value = value) :
    goRep (token name) value prev pre (token name ++ rest) =
      value ++ goRep (token name) value (some '}')
        (pre ++ token name) rest := by
  rw [show (token name ++ rest) =
    '{' :: (('{' :: (name ++ ['}', '}'])) ++ rest) from rfl]
  rw [goRep, dif_pos]
  swap
  · exact ⟨token_ne_nil name,
      List.isPrefixOf_iff_prefix.mpr ⟨rest, rfl⟩, hprev⟩
  have hgl : ∀ (h : token name ≠ []), (token name).getLast h = '}' :=
    fun h => token_getLast name h
  rw [hgl, hval]
  congr 1
  show goRep (token name) value (some '}') (pre ++ token name)
      ((token name ++ rest).drop (token name).length) = _
  rw [List.drop_left]

theorem hasUng_guard (name rest : List Char) (prev : Option Char)
    (hname : ∀ c ∈ name, c ≠ '{' ∧ c ≠ '}') :
    hasUng (token name) prev ('$' :: (token name ++ rest)) =
      hasUng (token name) (some '}') rest := by
  rw [hasUng]
  have hpre : (token name).isPrefixOf ('$' :: (token name ++ rest)) = false := by
    by_contra hc
    have hb : (token name).isPrefixOf ('$' :: (token name ++ rest)) = true := by
      revert hc
      cases (token name).isPrefixOf ('$' :: (token name ++ rest)) <;> simp
    obtain ⟨t, ht⟩ := List.isPrefixOf_iff_prefix.mp hb
    have h0 : (token name ++ t)[0]? = some '$' := by
      rw [ht]; exact List.getElem?_cons_zero
    rw [List.getElem?_append_left (by rw [token_length]; omega),
      token_getElem?_zero] at h0
    exact absurd (Option.some_inj.mp h0) (by decide)
  rw [hpre]
  simp only [Bool.and_false, Bool.false_and, Bool.false_or]
  show hasUng (token name) (some '$')
    ('{' :: (('{' :: (name ++ ['}', '}'])) ++ rest)) = _
  rw [hasUng]
  have hguard : decide (some '$' ≠ some '$') = false := by decide
  rw [hguard]
  simp only [Bool.and_false, Bool.false_or]
  rw [hasUng_skip (token name) ('{' :: (name ++ ['}', '}'])) rest
    (some '{') ?hskip2]
  case hskip2 =>
    intro i hi
    have hrw : (('{' :: (name ++ ['}', '}'])) ++ rest).drop i =
        (token name ++ rest).drop (i + 1) := by
      rw [show (token name ++ rest) =
        '{' :: (('{' :: (name ++ ['}', '}'])) ++ rest) from rfl,
        List.drop_succ_cons]
    rw [hrw]
    refine token_selfOverlap hname (i + 1) rest (by omega) ?_
    simp only [List.length_cons, List.length_append, List.length_nil] at hi
    rw [token_length]
    omega
  have hlast : lastO (some '{') ('{' :: (name ++ ['}', '}'])) = some '}' := by
    unfold lastO
    rw [show ('{' :: (name ++ ['}', '}'])) =
      ('{' :: (name ++ ['}'])) ++ ['}'] by simp, List.getLast?_concat]
  rw [hlast]

theorem hasUng_unguard (name rest : List Char) (prev : Option Char)
    (hprev : prev ≠ some '$') :
    hasUng (token name) prev (token name ++ rest) = true := by
  show hasUng (token name) prev
    ('{' :: (('{' :: (name ++ ['}', '}'])) ++ rest)) = true
  rw [hasUng]
  have h1 : decide (token name ≠ []) = true := by
    simp [token_ne_nil]
  have h2 : (token name).isPrefixOf
      ('{' :: (('{' :: (name ++ ['}', '}'])) ++ rest)) = true :=
    List.isPrefixOf_iff_prefix.mpr ⟨rest, rfl⟩
  have h3 : decide (prev ≠ some '$') = true := by
    simp [hprev]
  rw [h1, h2, h3]
  simp

theorem goRep_nil (key value : List Char) (prev : Option Char)
    (pre : List Char) : goRep key value prev pre [] = [] := by
  rw [goRep]

theorem goRep_fin (name value fin : List Char) (prev : Option Char)
    (pre : List Char)
    (hfin : ∀ i < fin.length, ¬ token name <+: fin.drop i) :
    goRep (token name) value prev pre fin = fin := by
  calc goRep (token name) value prev pre fin
      = goRep (token name) value prev pre (fin ++ []) := by
        rw [List.append_nil]
    _ = fin ++ goRep (token name) value (lastO prev fin) (pre ++ fin) [] :=
        goRep_skip (token name) value fin [] prev pre (fun i hi => by
          rw [List.append_nil]; exact hfin i hi)
    _ = fin := by rw [goRep_nil, List.append_nil]

theorem hasUng_nil (key : List Char) (prev : Option Char) :
    hasUng key prev [] = false := by
  rw [hasUng]

theorem hasUng_fin (name fin : List Char) (prev : Option Char)
    (hfin : ∀ i < fin.length, ¬ token name <+: fin.drop i) :
    hasUng (token name) prev fin = false := by
  calc hasUng (token name) prev fin
      = hasUng (token name) prev (fin ++ []) := by rw [List.append_nil]
    _ = hasUng (token name) (lastO prev fin) [] :=
        hasUng_skip (token name) fin [] prev (fun i hi => by
          rw [List.append_nil]; exact hfin i hi)
    _ = false := hasUng_nil _ _

theorem occ_extend {name : List Char} (ch tail : List Char) (g : Bool)
    (hocc : ∀ i < ch.length, ¬ token name <+:
      ((ch ++ (if g then '$' :: token name else token name)).drop i))
    (i : Nat) (hi : i < ch.length) :
    ¬ token name <+:
      ((ch ++ ((if g then '$' :: token name else token name) ++ tail)).drop i) := by
  intro hcontra
  apply hocc i hi
  refine prefix_of_prefix_drop
    (X := ch ++ (if g then '$' :: token name else token name))
    (Y := ch ++ ((if g then '$' :: token name else token name) ++ tail))
    ⟨tail, by simp⟩ i ?_ hcontra
  rw [List.length_drop, List.length_append]
  have : (token name).length ≤
      (if g then '$' :: token name else token name).length := by
    cases g <;> simp
  omega

theorem lastO_ne_dollar {prev : Option Char} (ch : List Char)
    (hprev : prev ≠ some '$') (hch : ch.getLast? ≠ some '$') :
    lastO prev ch ≠ some '$' := by
  unfold lastO
  cases hx : ch.getLast? with
  | none => exact hprev
  | some a =>
    rw [hx] at hch
    exact hch

theorem goRep_assemble (name value : List Char)
    (hname : ∀ c ∈ name, c ≠ '{' ∧ c ≠ '}')
    (hval : ∀ m b a : List Char, getSub m b a value = value) :
    ∀ (occs : List (List Char × Bool)) (fin : List Char)
      (prev : Option Char) (pre : List Char),
    prev ≠ some '$' →
    (∀ p ∈ occs, GoodOcc name p) →
    (∀ i < fin.length, ¬ token name <+: fin.drop i) →
    goRep (token name) value prev pre (assemble (token name) occs fin) =
      assembleRes (token name) value occs fin := by
  intro occs
  induction occs with
  | nil =>
    intro fin prev pre hprev _ hfin
    simp only [assemble, assembleRes]
    exact goRep_fin name value fin prev pre hfin
  | cons p rest ih =>
    obtain ⟨ch, g⟩ := p
    intro fin prev pre hprev hoccs hfin
    have hp : GoodOcc name (ch, g) := hoccs (ch, g) (List.mem_cons_self _ _)
    simp only [assemble, assembleRes, List.append_assoc]
    rw [goRep_skip (token name) value ch _ prev pre
      (occ_extend ch (assemble (token name) rest fin) g hp.1)]
    cases g with
    | true =>
      simp only [if_pos trivial, List.cons_append]
      rw [goRep_guard name value _ _ _ hname,
        ih fin (some '}') _ (by decide)
          (fun q hq => hoccs q (List.mem_cons_of_mem _ hq)) hfin]
    | false =>
      simp only [if_neg Bool.false_ne_true]
      rw [goRep_unguard name value _ _ _
        (lastO_ne_dollar ch hprev (hp.2 rfl)) hval,
        ih fin (some '}') _ (by decide)
          (fun q hq => hoccs q (List.mem_cons_of_mem _ hq)) hfin]

theorem hasUng_assemble (name : List Char)
    (hname : ∀ c ∈ name, c ≠ '{' ∧ c ≠ '}') :
    ∀ (occs : List (List Char × Bool)) (fin : List Char) (prev : Option Char),
    prev ≠ some '$' →
    (∀ p ∈ occs, GoodOcc name p) →
    (∀ i < fin.length, ¬ token name <+: fin.drop i) →
    hasUng (token name) prev (assemble (token name) occs fin) =
      occs.any (fun p => !p.2) := by
  intro occs
  induction occs with
  | nil =>
    intro fin prev hprev _ hfin
    simp only [assemble, List.any_nil]
    exact hasUng_fin name fin prev hfin
  | cons p rest ih =>
    obtain ⟨ch, g⟩ := p
    intro fin prev hprev hoccs hfin
    have hp : GoodOcc name (ch, g) := hoccs (ch, g) (List.mem_cons_self _ _)
    simp only [assemble, List.any_cons, List.append_assoc]
    rw [hasUng_skip (token name) ch _ prev
      (occ_extend ch (assemble (token name) rest fin) g hp.1)]
    have htail := ih fin (some '}') (by decide)
      (fun q hq => hoccs q (List.mem_cons_of_mem _ hq)) hfin
    cases g with
    | true =>
      simp only [if_pos trivial, List.cons_append]
      rw [hasUng_guard name _ _ hname, htail]
      simp
    | false =>
      simp only [if_neg Bool.false_ne_true]
      rw [hasUng_unguard name _ _
        (lastO_ne_dollar ch hprev (hp.2 rfl))]
      simp

theorem assembleRes_eq_assemble (key value : List Char)
    (occs : List (List Char × Bool)) (fin : List Char)
    (h : occs.any (fun p => !p.2) = false) :
    assembleRes key value occs fin = assemble key occs fin := by
  induction occs with
  | nil => rfl
  | cons p rest ih =>
    obtain ⟨ch, g⟩ := p
    simp only [List.any_cons, Bool.or_eq_false_iff] at h
    cases g with
    | true =>
      show ch ++ ('$' :: key) ++ assembleRes key value rest fin = _
      rw [ih h.2]
      rfl
    | false => simp at h

theorem hasUng_empty_key : ∀ (prev : Option Char) (s : List Char),
    hasUng [] prev s = false := by
  intro prev s
  induction s generalizing prev with
  | nil => exact hasUng_nil [] prev
  | cons c cs ih =>
    rw [hasUng]
    simp only [ne_eq, not_true_eq_false, decide_False, Bool.false_and,
      Bool.false_or]
    exact ih (some c)

theorem hasUng_eq_false_of_guarded (key : List Char) :
    ∀ (s : List Char) (prev : Option Char),
    (∀ i, key ≠ [] → key <+: s.drop i →
      (match i with
       | 0 => prev = some '$'
       | Nat.succ j => s[j]? = some '$')) →
    hasUng key prev s = false := by
  intro s
  induction s with
  | nil => intro prev _; exact hasUng_nil key prev
  | cons c cs ih =>
    intro prev h
    rw [hasUng]
    have hhead : (decide (key ≠ []) && key.isPrefixOf (c :: cs) &&
        decide (prev ≠ some '$')) = false := by
      by_cases hk : key = []
      · simp [hk]
      · by_cases hpre : key.isPrefixOf (c :: cs) = true
        · have hp : key <+: (c :: cs).drop 0 := by
            rw [List.drop_zero]
            exact List.isPrefixOf_iff_prefix.mp hpre
          have hpv := h 0 hk hp
          simp [hpv]
        · have : key.isPrefixOf (c :: cs) = false := by
            revert hpre
            cases key.isPrefixOf (c :: cs) <;> simp
          simp [this]
    rw [hhead]
    simp only [Bool.false_or]
    apply ih (some c)
    intro i hk hp
    have hstep := h (i + 1) hk (by rw [List.drop_succ_cons]; exact hp)
    cases i with
    | zero => simpa [List.getElem?_cons_zero] using hstep
    | succ j => simpa [List.getElem?_cons_succ] using hstep

/-- C1: `getVariantsToApply` returns exactly the five specified ordered
lists on the five listed axis combinations, and the empty list on every
other combination of the two axes (each axis value drawn from its
enumeration or absent). -/
theorem C1_getVariantsToApply_cases (t u : Option String)
    (ht : t ∈ ([none, some "single-tenant", some "multi-tenant"] :
      List (Option String)))
    (hu : u ∈ ([none, some "b2b", some "b2b2c"] : List (Option String))) :
    (t = some "multi-tenant" → u = some "b2b2c" →
      getVariantsToApply ⟨t, u⟩ = ["multi-tenant", "b2b2c", "b2b2c_multi-tenant"]) ∧
    (t = some "single-tenant" → u = some "b2b2c" →
      getVariantsToApply ⟨t, u⟩ = ["b2b2c", "b2b2c_single-tenant"]) ∧
    (t = some "multi-tenant" → (u = some "b2b" ∨ u = none) →
      getVariantsToApply ⟨t, u⟩ = ["multi-tenant"]) ∧
    (t = some "single-tenant" → u = none →
      getVariantsToApply ⟨t, u⟩ = ["single-tenant"]) ∧
    (t = some "single-tenant" → u = some "b2b" →
      getVariantsToApply ⟨t, u⟩ = []) ∧
    (t = none → getVariantsToApply ⟨t, u⟩ = []) := by
  simp only [List.mem_cons, List.mem_singleton, List.not_mem_nil, or_false] at ht hu
  rcases ht with rfl | rfl | rfl <;> rcases hu with rfl | rfl | rfl <;>
    refine ⟨?_, ?_, ?_, ?_, ?_, ?_⟩ <;> decide

/-- Witness for C1 at the multi-tenant/b2b2c combination. -/
theorem C1_getVariantsToApply_cases_witness :
    getVariantsToApply ⟨some "multi-tenant", some "b2b2c"⟩ =
      ["multi-tenant", "b2b2c", "b2b2c_multi-tenant"] :=
  (C1_getVariantsToApply_cases (some "multi-tenant") (some "b2b2c")
    (by decide) (by decide)).1 rfl rfl

/-- C7 counterexample: on the full choice set, `resolveVariantChoices` gives
the `infrastructure` service BOTH axes (tenancy and userModel), so
`admin-portal` is not the only linked service receiving both axes. -/
theorem C7_resolveVariantChoices_cex :
    (resolveVariantChoices ⟨some "multi-tenant", some "b2b2c"⟩).lookup
        "infrastructure" =
      some ⟨some "multi-tenant", some "b2b2c"⟩ := by
  decide

/-- C7 amended: `resolveVariantChoices` gives backend the full choice set,
gives `customers-portal` only its linked tenancy axis, and gives BOTH
`admin-portal` AND `infrastructure` both axes (each via an explicit special
case in the source). -/
theorem C7_resolveVariantChoices_amended (bc : Choices) :
    resolveVariantChoices bc =
      [("backend", bc),
       ("admin-portal", ⟨bc.tenancy, bc.userModel⟩),
       ("customers-portal", ⟨bc.tenancy, none⟩),
       ("infrastructure", ⟨bc.tenancy, bc.userModel⟩)] := by
  cases bc
  rfl

/-- C8: the sparse-checkout set is monotonically non-shrinking across
`ensureCacheReady` calls: after `ensureCacheReady a` then
`ensureCacheReady b`, both `a` and `b` are in the sparse set; a further
`ensureCacheReady a` keeps everything; and `clearCache` empties the set. -/
theorem C8_cache_monotonic (s : CacheState) (a b : List String) :
    (∀ x, x ∈ a → x ∈ (ensureCacheReady b (ensureCacheReady a s)).sparse) ∧
    (∀ x, x ∈ b → x ∈ (ensureCacheReady b (ensureCacheReady a s)).sparse) ∧
    (∀ x, x ∈ (ensureCacheReady b (ensureCacheReady a s)).sparse →
      x ∈ (ensureCacheReady a (ensureCacheReady b (ensureCacheReady a s))).sparse) ∧
    (clearCache s).sparse = [] := by
  refine ⟨?_, ?_, ?_, rfl⟩
  · intro x hx
    rw [mem_ensureCacheReady]
    left
    refine ⟨gitDir_ensureCacheReady _ _, ?_⟩
    rw [mem_ensureCacheReady]
    right
    exact hx
  · intro x hx
    rw [mem_ensureCacheReady]
    right
    exact hx
  · intro x hx
    rw [mem_ensureCacheReady]
    left
    exact ⟨gitDir_ensureCacheReady _ _, hx⟩

/-- Witness for C8 on concrete service sets. -/
theorem C8_cache_monotonic_witness :
    "b" ∈ (ensureCacheReady ["a"]
      (ensureCacheReady ["b"] (ensureCacheReady ["a"] ⟨false, []⟩))).sparse :=
  (C8_cache_monotonic ⟨false, []⟩ ["a"] ["b"]).2.2.1 "b"
    ((C8_cache_monotonic ⟨false, []⟩ ["a"] ["b"]).2.1 "b" (by decide))

/-- C9: cache initialization is atomic with respect to failure: whenever any
step of `initializeCache` fails (clone or sparse-checkout configuration,
regardless of whether the failed clone left a partial directory), the error
propagates only after the cache directory has been removed. -/
theorem C9_initializeCache_atomic (env : InitEnv) (dirExists : Bool)
    (e : String)
    (h : (initializeCacheRun env dirExists).1 = Except.error e) :
    (initializeCacheRun env dirExists).2 = false := by
  unfold initializeCacheRun at h ⊢
  by_cases hc : env.cloneOk
  · by_cases hs : env.sparseInitOk
    · simp [hc, hs] at h
    · simp [hc, hs]
  · simp [hc]

/-- Witness for C9: a failed sparse-checkout step leaves no directory. -/
theorem C9_initializeCache_atomic_witness :
    (initializeCacheRun ⟨true, false, false⟩ false).1 =
      Except.error "Failed to initialize cache: sparse-checkout init" ∧
    (initializeCacheRun ⟨true, false, false⟩ false).2 = false :=
  ⟨rfl, C9_initializeCache_atomic ⟨true, false, false⟩ false _ rfl⟩

/-- C6 counterexample: with the placeholder map
`{ "{{X}}": "$", "{{Y}}": "v" }` (in that insertion order) on the content
`{{X}}{{Y}}`, the `{{X}}` pass inserts a `$` directly before the bare
`{{Y}}` occurrence, so the later `{{Y}}` pass skips it: the bare `{{Y}}`
occurrence of the original file is NOT replaced with its value, refuting
the claim for arbitrary placeholder maps (the claim would require the
result `$v`). -/
theorem C6_replaceVariables_cex :
    replaceVariablesInFile
      [(token ['X'], ['$']), (token ['Y'], ['v'])]
      (token ['X'] ++ token ['Y']) =
      ('$' :: token ['Y'], true) ∧
    ('$' :: token ['Y']) ≠ ['$', 'v'] := by
  constructor
  · simp [replaceVariablesInFile, token, hasUng, goRep, getSub,
      List.isPrefixOf]
  · decide

/-- C6 amended: for a single placeholder `{{NAME}}` (name free of braces)
whose value contains no active `GetSubstitution` escape (no `$$`, `$&`,
`` $` `` or `$'`, so the string replacement inserts the value verbatim)
and whose occurrences in the content are laid out as alternating
occurrence-free chunks and `$`-guarded or bare key occurrences, one
substitution pass replaces exactly the bare occurrences with the value and
leaves every `$`-guarded occurrence unchanged; the modified flag is set iff
some bare occurrence exists.  With several placeholders the guarantee holds
per pass but not end-to-end, because a value ending in `$` can shield a
later key's occurrence (see the counterexample). -/
theorem C6_replaceVariables_amended (name value fin : List Char)
    (occs : List (List Char × Bool))
    (hname : ∀ c ∈ name, c ≠ '{' ∧ c ≠ '}')
    (hval : ∀ m b a : List Char, getSub m b a value = value)
    (hoccs : ∀ p ∈ occs, GoodOcc name p)
    (hfin : ∀ i < fin.length, ¬ token name <+: fin.drop i) :
    replaceVariablesInFile [(token name, value)]
      (assemble (token name) occs fin) =
      (assembleRes (token name) value occs fin,
        occs.any (fun p => !p.2)) := by
  simp only [replaceVariablesInFile, List.foldl_cons, List.foldl_nil]
  rw [hasUng_assemble name hname occs fin none (by decide) hoccs hfin]
  cases h : occs.any (fun p => !p.2) with
  | true =>
    simp only [if_pos trivial]
    rw [goRep_assemble name value hname hval occs fin none [] (by decide)
      hoccs hfin]
  | false =>
    simp only [Bool.false_eq_true, if_false]
    rw [assembleRes_eq_assemble (token name) value occs fin h]

/-- Witness for C6 amended at a concrete mixed bare/guarded layout. -/
theorem C6_replaceVariables_amended_witness :
    replaceVariablesInFile [(token ['P'], ['v'])]
      (assemble (token ['P']) [(['a'], false), (['-'], true)] ['z']) =
      (assembleRes (token ['P']) ['v'] [(['a'], false), (['-'], true)] ['z'],
        true) := by
  have h := C6_replaceVariables_amended ['P'] ['v'] ['z']
    [(['a'], false), (['-'], true)] (by decide)
    (fun m b a => rfl)
    (by simp only [GoodOcc]; decide) (by decide)
  simpa using h

/-- C10: if every occurrence of every placeholder key in the content is
immediately preceded by a literal `$`, then `replaceVariablesInFile`
performs no substitution, reports `modified = false` (hence never writes
the file back), and the content is returned byte-identical. -/
theorem C10_replaceVariables_noWrite (vars : List (List Char × List Char))
    (content : List Char)
    (h : ∀ kv ∈ vars, ∀ i < content.length, kv.1 <+: content.drop i →
      0 < i ∧ content[i - 1]? = some '$') :
    replaceVariablesInFile vars content = (content, false) := by
  have hkey : ∀ kv ∈ vars, hasUng kv.1 none content = false := by
    intro kv hkv
    by_cases hk : kv.1 = []
    · rw [hk]
      exact hasUng_empty_key none content
    · apply hasUng_eq_false_of_guarded
      intro i _ hp
      have hi : i < content.length := by
        by_contra hge
        rw [List.drop_eq_nil_of_le (le_of_not_lt hge)] at hp
        exact hk (List.prefix_nil.mp hp)
      obtain ⟨hpos, hj⟩ := h kv hkv i hi hp
      cases i with
      | zero => exact absurd hpos (by omega)
      | succ j => simpa using hj
  unfold replaceVariablesInFile
  induction vars with
  | nil => rfl
  | cons kv rest ih =>
    rw [List.foldl_cons]
    have hstep : (if hasUng kv.1 none content then
        (goRep kv.1 kv.2 none [] content, true) else (content, false)) =
        (content, false) := by
      rw [hkey kv (List.mem_cons_self _ _)]
      simp
    rw [hstep]
    exact ih (fun q hq => h q (List.mem_cons_of_mem _ hq))
      (fun q hq => hkey q (List.mem_cons_of_mem _ hq))

/-- Witness for C10: a file whose only key occurrence is `$`-guarded is
returned unchanged with `modified = false`. -/
theorem C10_replaceVariables_noWrite_witness :
    replaceVariablesInFile [(token ['X'], ['v'])]
      ('$' :: (token ['X'] ++ ['e'])) =
      ('$' :: (token ['X'] ++ ['e']), false) :=
  C10_replaceVariables_noWrite [(token ['X'], ['v'])]
    ('$' :: (token ['X'] ++ ['e'])) (by decide)

/-! ### Section insertion (C2) -/

open SectionReplacer VariantProcessor

/-- C2 counterexample: service with sections `S1, S2` for existing target
`f.ts` whose content carries only the `S2` marker pair; both section
content files exist.  `insertVariantSections` does NOT abort: it returns
successfully, records only a warning for the missing `S1` marker pair
(the `catch` in variant-processor.js lines 289–291), and still applies
the later `S2` section. -/
theorem C2_insertVariantSections_cex :
    insertVariantSections [("f.ts", ["S1", "S2"])]
      [("f.ts.S1", ['A', '\n']), ("f.ts.S2", ['B', '\n'])]
      [("f.ts",
        startMarker MStyle.slash ['S', '2'] ++
          '\n' :: 'x' :: '\n' :: (endMarker MStyle.slash ['S', '2'] ++ ['\n']))] =
      Except.ok ([("f.ts", ['B', '\n'])],
        ["Section markers not found: S1"]) := by
  rfl

/-- C2 amended: when a mandatory section's marker pair is absent,
`insertVariantSections` records the `replaceSection` error as a warning
and continues with the remaining sections and files; it never aborts the
service's composition (every per-section error is caught). -/
theorem C2_insertVariantSections_amended
    (sections : List (String × List String))
    (secFs : List (String × List Char)) (dest : VariantProcessor.Fs) :
    ∃ r, insertVariantSections sections secFs dest = Except.ok r :=
  ⟨_, rfl⟩

/-! ### Helper lemmas for the index-based section replacement (C3) -/

theorem firstIdx?_spec (pat : List Char) : ∀ (s : List Char) (n : Nat),
    pat <+: s.drop n → (∀ m < n, ¬ pat <+: s.drop m) →
    firstIdx? pat s = some n := by
  intro s
  induction s with
  | nil =>
    intro n h hmin
    rw [List.drop_nil] at h
    have hpat : pat = [] := List.prefix_nil.mp h
    have hn : n = 0 := by
      by_contra h0
      exact hmin 0 (Nat.pos_of_ne_zero h0) (by rw [List.drop_nil]; exact h)
    subst hn hpat
    rfl
  | cons c t ih =>
    intro n h hmin
    by_cases hp : pat.isPrefixOf (c :: t) = true
    · have hn : n = 0 := by
        by_contra h0
        exact hmin 0 (Nat.pos_of_ne_zero h0)
          (by rw [List.drop_zero]; exact List.isPrefixOf_iff_prefix.mp hp)
      subst hn
      rw [firstIdx?, if_pos hp]
    · rw [firstIdx?, if_neg hp]
      cases n with
      | zero =>
        rw [List.drop_zero] at h
        exact absurd (List.isPrefixOf_iff_prefix.mpr h) hp
      | succ n' =>
        rw [ih n' (by rw [List.drop_succ_cons] at h; exact h)
          (fun m hm => by
            have := hmin (m + 1) (Nat.succ_lt_succ hm)
            rw [List.drop_succ_cons] at this
            exact this)]
        rfl

theorem firstIdx?_none (pat : List Char) : ∀ (s : List Char),
    (∀ i, ¬ pat <+: s.drop i) → firstIdx? pat s = none := by
  intro s
  induction s with
  | nil =>
    intro h
    have h0 := h 0
    rw [List.drop_nil] at h0
    rw [firstIdx?, if_neg (fun hp => h0 (List.isPrefixOf_iff_prefix.mp hp))]
  | cons c t ih =>
    intro h
    rw [firstIdx?, if_neg (fun hp => by
      have h0 := h 0
      rw [List.drop_zero] at h0
      exact h0 (List.isPrefixOf_iff_prefix.mp hp))]
    rw [ih (fun i => by
      have := h (i + 1)
      rw [List.drop_succ_cons] at this
      exact this)]
    rfl

theorem lastNlLe_some (s : List Char) (j : Nat) (hj : s[j]? = some '\n') :
    ∀ k, j ≤ k → (∀ i, j < i → i ≤ k → s[i]? ≠ some '\n') →
    lastNlLe s k = some j := by
  intro k
  induction k with
  | zero =>
    intro hk _
    have : j = 0 := Nat.le_zero.mp hk
    subst this
    rw [lastNlLe, if_pos hj]
  | succ k ih =>
    intro hk hmax
    by_cases hjk : j = k + 1
    · subst hjk
      rw [lastNlLe, if_pos hj]
    · have hjk' : j ≤ k := by omega
      rw [lastNlLe, if_neg (hmax (k + 1) (by omega) (le_refl _))]
      exact ih hjk' (fun i h1 h2 => hmax i h1 (by omega))

theorem lastNlLe_none (s : List Char) :
    ∀ k, (∀ i ≤ k, s[i]? ≠ some '\n') → lastNlLe s k = none := by
  intro k
  induction k with
  | zero =>
    intro h
    rw [lastNlLe, if_neg (h 0 (le_refl _))]
  | succ k ih =>
    intro h
    rw [lastNlLe, if_neg (h (k + 1) (le_refl _))]
    exact ih (fun i hi => h i (by omega))

theorem singleton_prefix_iff (c : Char) (z : List Char) :
    [c] <+: z ↔ z[0]? = some c := by
  constructor
  · rintro ⟨t, rfl⟩
    rw [List.singleton_append, List.getElem?_cons_zero]
  · intro h
    cases z with
    | nil => simp at h
    | cons d t =>
      rw [List.getElem?_cons_zero] at h
      rw [← Option.some_inj.mp h]
      exact ⟨t, by rw [List.singleton_append]⟩

theorem startMarker_nl_free {name : List Char} (hnm : ∀ c ∈ name, c ≠ '\n')
    (σ : MStyle) : ∀ c ∈ startMarker σ name, c ≠ '\n' := by
  intro c hc hceq
  subst hceq
  cases σ <;>
    simp only [startMarker, List.mem_append, List.mem_cons,
      List.not_mem_nil, or_false] at hc <;>
    rcases hc with (hc | hc) | hc <;>
    first
      | exact (hnm _ hc) rfl
      | exact absurd hc (by decide)

theorem endMarker_nl_free {name : List Char} (hnm : ∀ c ∈ name, c ≠ '\n')
    (σ : MStyle) : ∀ c ∈ endMarker σ name, c ≠ '\n' := by
  intro c hc hceq
  subst hceq
  cases σ <;>
    simp only [endMarker, List.mem_append, List.mem_cons,
      List.not_mem_nil, or_false] at hc <;>
    rcases hc with (hc | hc) | hc <;>
    first
      | exact (hnm _ hc) rfl
      | exact absurd hc (by decide)

theorem marker_ne_nil (name : List Char) :
    ∀ m ∈ allMarkers name, m ≠ [] := by
  intro m hm
  simp only [allMarkers, List.mem_cons, List.not_mem_nil, or_false] at hm
  rcases hm with rfl | rfl | rfl | rfl | rfl | rfl <;>
    simp [startMarker, endMarker]

theorem startMarker_head (σ : MStyle) (name : List Char) :
    ∃ c, (startMarker σ name)[0]? = some c ∧ c ≠ '\n' := by
  cases σ
  · exact ⟨'/', List.getElem?_cons_zero, by decide⟩
  · exact ⟨'{', List.getElem?_cons_zero, by decide⟩
  · exact ⟨'#', List.getElem?_cons_zero, by decide⟩

theorem findMarkers_eq (σ : MStyle) (name content : List Char) (S E : Nat)
    (h1 : firstIdx? (startMarker σ name) content = some S)
    (h2 : firstIdx? (endMarker σ name) content = some E)
    (hsel : ∀ σ' : MStyle, σ' ≠ σ →
      firstIdx? (startMarker σ' name) content = none) :
    findMarkers name content = (some S, some E) := by
  cases σ
  case slash =>
    simp only [findMarkers, h1, h2]
    simp
  case jsx =>
    simp only [findMarkers, hsel MStyle.slash (by decide), h1, h2]
    simp
  case hash =>
    simp only [findMarkers, hsel MStyle.slash (by decide),
      hsel MStyle.jsx (by decide), h1, h2]
    simp

/-- C3 counterexample: a file carrying a matched `//`-style pair AND a
matched JSX-style pair for the same section name.  `replaceSection`
replaces only the `//` span, the JSX pair survives, and `hasSection` is
still true afterwards — refuting the claim for arbitrary files with a
matched pair. -/
theorem C3_replaceSection_cex :
    replaceSection ['A'] ['N', '\n']
      (startMarker MStyle.slash ['A'] ++ '\n' :: 'x' :: '\n' ::
        (endMarker MStyle.slash ['A'] ++ '\n' ::
          (startMarker MStyle.jsx ['A'] ++ '\n' :: 'y' :: '\n' ::
            (endMarker MStyle.jsx ['A'] ++ ['\n'])))) =
      Except.ok ('N' :: '\n' ::
        (startMarker MStyle.jsx ['A'] ++ '\n' :: 'y' :: '\n' ::
          (endMarker MStyle.jsx ['A'] ++ ['\n']))) ∧
    hasSection ['A'] ('N' :: '\n' ::
      (startMarker MStyle.jsx ['A'] ++ '\n' :: 'y' :: '\n' ::
        (endMarker MStyle.jsx ['A'] ++ ['\n']))) = true := by
  constructor
  · rfl
  · rfl

/-- C3 amended: for a file whose ONLY markers for the section name are a
single matched pair in one comment style — the start marker on its own
line-start position, the end marker's line terminated by a newline — and
a replacement text that reintroduces no markers, `replaceSection` yields
exactly `pre ++ newContent ++ post` (the marker lines and the enclosed
span are consumed) and `hasSection` is false afterwards. -/
theorem C3_replaceSection_amended (σ : MStyle)
    (name newContent pre indent mid eTail post : List Char)
    (hpre : pre = [] ∨ ∃ p', pre = p' ++ ['\n'])
    (hind : ∀ c ∈ indent, c ≠ '\n')
    (hnm : ∀ c ∈ name, c ≠ '\n')
    (het : ∀ c ∈ eTail, c ≠ '\n')
    (hs : ∀ i < (pre ++ indent).length,
      ¬ startMarker σ name <+:
        ((markedContent σ name pre indent mid eTail post).drop i))
    (he : ∀ i < (pre ++ indent ++ startMarker σ name ++ mid).length,
      ¬ endMarker σ name <+:
        ((markedContent σ name pre indent mid eTail post).drop i))
    (hsel : ∀ σ' : MStyle, σ' ≠ σ →
      firstIdx? (startMarker σ' name)
        (markedContent σ name pre indent mid eTail post) = none)
    (hres : ∀ m ∈ allMarkers name, ∀ i < (pre ++ newContent ++ post).length,
      ¬ m <+: ((pre ++ newContent ++ post).drop i)) :
    replaceSection name newContent
      (markedContent σ name pre indent mid eTail post) =
      Except.ok (pre ++ newContent ++ post) ∧
    hasSection name (pre ++ newContent ++ post) = false := by
  have hassoc1 : markedContent σ name pre indent mid eTail post =
      (pre ++ indent) ++ (startMarker σ name ++
        (mid ++ (endMarker σ name ++ (eTail ++ '\n' :: post)))) := by
    simp [markedContent]
  have hassoc2 : markedContent σ name pre indent mid eTail post =
      (pre ++ indent ++ startMarker σ name ++ mid) ++
        (endMarker σ name ++ (eTail ++ '\n' :: post)) := by
    simp [markedContent]
  have h1 : firstIdx? (startMarker σ name)
      (markedContent σ name pre indent mid eTail post) =
      some (pre ++ indent).length := by
    apply firstIdx?_spec
    · rw [hassoc1, List.drop_left]
      exact List.prefix_append _ _
    · exact hs
  have h2 : firstIdx? (endMarker σ name)
      (markedContent σ name pre indent mid eTail post) =
      some (pre ++ indent ++ startMarker σ name ++ mid).length := by
    apply firstIdx?_spec
    · rw [hassoc2, List.drop_left]
      exact List.prefix_append _ _
    · exact he
  have hfind := findMarkers_eq σ name _ _ _ h1 h2 hsel
  -- line start of the start-marker line is |pre|
  have hnl : (match lastNlLe (markedContent σ name pre indent mid eTail post)
      ((pre ++ indent).length - 1) with
      | some j => j + 1
      | none => 0) = pre.length := by
    rcases hpre with rfl | ⟨p', rfl⟩
    · have hnone : lastNlLe (markedContent σ name [] indent mid eTail post)
          (([] ++ indent : List Char).length - 1) = none := by
        apply lastNlLe_none
        intro i hi
        by_cases hiS : i < indent.length
        · have : (markedContent σ name [] indent mid eTail post)[i]? =
              indent[i]? := by
            rw [hassoc1]
            rw [List.getElem?_append_left (by simpa using hiS)]
            simp
          rw [this]
          intro hcon
          exact hind _ (List.getElem?_mem hcon) rfl
        · have hS0 : indent.length = 0 ∧ i = 0 := by
            simp only [List.nil_append, List.length_nil] at hi ⊢
            omega
          obtain ⟨hS0, rfl⟩ := hS0
          have hind0 : indent = [] := List.length_eq_zero.mp hS0
          subst hind0
          obtain ⟨c0, hc0, hc0n⟩ := startMarker_head σ name
          have hlen0 : 0 < (startMarker σ name).length := by
            cases hl : startMarker σ name with
            | nil => rw [hl] at hc0; simp at hc0
            | cons a t => simp
          have : (markedContent σ name [] [] mid eTail post)[0]? =
              (startMarker σ name)[0]? := by
            rw [hassoc1]
            simp only [List.nil_append]
            rw [List.getElem?_append_left hlen0]
          rw [this, hc0]
          intro hcon
          exact hc0n (by injection hcon)
      rw [hnone]
      simp
    · have hj : (markedContent σ name (p' ++ ['\n']) indent mid eTail
          post)[p'.length]? = some '\n' := by
        rw [hassoc1]
        rw [List.getElem?_append_left (by simp)]
        rw [List.getElem?_append_left (by simp)]
        rw [List.getElem?_append_right (le_refl _)]
        simp
      have hmax : ∀ i, p'.length < i →
          i ≤ ((p' ++ ['\n']) ++ indent : List Char).length - 1 →
          (markedContent σ name (p' ++ ['\n']) indent mid eTail post)[i]? ≠
            some '\n' := by
        intro i hlt hle
        have hiS : i < ((p' ++ ['\n']) ++ indent : List Char).length := by
          simp only [List.length_append, List.length_singleton] at hle ⊢
          omega
        have hipre : (p' ++ ['\n'] : List Char).length ≤ i := by
          simp only [List.length_append, List.length_singleton]
          omega
        have : (markedContent σ name (p' ++ ['\n']) indent mid eTail
            post)[i]? = indent[i - (p' ++ ['\n'] : List Char).length]? := by
          rw [hassoc1]
          rw [List.getElem?_append_left hiS]
          rw [List.getElem?_append_right hipre]
        rw [this]
        intro hcon
        exact hind _ (List.getElem?_mem hcon) rfl
      have hsome : lastNlLe (markedContent σ name (p' ++ ['\n']) indent mid
          eTail post) (((p' ++ ['\n']) ++ indent : List Char).length - 1) =
          some p'.length := by
        apply lastNlLe_some _ _ hj
        · simp only [List.length_append, List.length_singleton]
          omega
        · exact hmax
      rw [hsome]
      simp
  -- the newline closing the end marker's line
  have hfg : firstNlGe (markedContent σ name pre indent mid eTail post)
      (pre ++ indent ++ startMarker σ name ++ mid).length =
      some ((pre ++ indent ++ startMarker σ name ++ mid).length +
        ((endMarker σ name).length + eTail.length)) := by
    rw [firstNlGe, hassoc2, List.drop_left]
    have : firstIdx? ['\n'] (endMarker σ name ++ (eTail ++ '\n' :: post)) =
        some ((endMarker σ name).length + eTail.length) := by
      apply firstIdx?_spec
      · have hr : (endMarker σ name ++ (eTail ++ '\n' :: post)).drop
            ((endMarker σ name).length + eTail.length) = '\n' :: post := by
          rw [show endMarker σ name ++ (eTail ++ '\n' :: post) =
            (endMarker σ name ++ eTail) ++ '\n' :: post by simp]
          rw [show (endMarker σ name).length + eTail.length =
            (endMarker σ name ++ eTail).length by simp]
          exact List.drop_left _ _
        rw [hr]
        exact ⟨post, rfl⟩
      · intro m hm
        rw [singleton_prefix_iff, List.getElem?_drop, Nat.add_zero]
        have hm' : m < (endMarker σ name ++ eTail).length := by
          simpa using hm
        rw [show endMarker σ name ++ (eTail ++ '\n' :: post) =
          (endMarker σ name ++ eTail) ++ '\n' :: post by simp]
        rw [List.getElem?_append_left hm']
        intro hcon
        have hmem := List.getElem?_mem hcon
        rw [List.mem_append] at hmem
        rcases hmem with hmem | hmem
        · exact endMarker_nl_free hnm σ _ hmem rfl
        · exact het _ hmem rfl
    rw [this]
    rfl
  constructor
  · rw [replaceSection, hfind]
    simp only [hnl, hfg]
    -- before = pre
    have hbefore : (markedContent σ name pre indent mid eTail
        post).take pre.length = pre := by
      rw [show markedContent σ name pre indent mid eTail post =
        pre ++ (indent ++ (startMarker σ name ++ (mid ++ (endMarker σ name ++
          (eTail ++ '\n' :: post))))) by simp [markedContent]]
      exact List.take_left pre _
    have hafter : (markedContent σ name pre indent mid eTail post).drop
        ((pre ++ indent ++ startMarker σ name ++ mid).length +
          ((endMarker σ name).length + eTail.length) + 1) = post := by
      rw [show markedContent σ name pre indent mid eTail post =
        (pre ++ indent ++ startMarker σ name ++ mid ++ endMarker σ name ++
          eTail ++ ['\n']) ++ post by simp [markedContent]]
      rw [show (pre ++ indent ++ startMarker σ name ++ mid).length +
          ((endMarker σ name).length + eTail.length) + 1 =
        (pre ++ indent ++ startMarker σ name ++ mid ++ endMarker σ name ++
          eTail ++ ['\n'] : List Char).length by simp; omega]
      exact List.drop_left _ _
    rw [hbefore, hafter]
  · have hnone' : ∀ m ∈ allMarkers name,
        firstIdx? m (pre ++ newContent ++ post) = none := by
      intro m hm
      exact firstIdx?_none m _
        (not_prefix_drop_of_lt (marker_ne_nil name m hm) (hres m hm))
    simp only [hasSection, containsSub]
    rw [hnone' _ (by simp [allMarkers]), hnone' _ (by simp [allMarkers]),
      hnone' _ (by simp [allMarkers]), hnone' _ (by simp [allMarkers]),
      hnone' _ (by simp [allMarkers]), hnone' _ (by simp [allMarkers])]
    rfl

/-! ### Helper lemmas for the cleanup pass (C4, C5) -/

open VariantProcessor

theorem joinl_cons {l : List Char} {ls : List (List Char)} (h : ls ≠ []) :
    joinl (l :: ls) = l ++ '\n' :: joinl ls := by
  cases ls with
  | nil => exact absurd rfl h
  | cons a as => rfl

theorem joinl_append {X R : List (List Char)} (h : R ≠ []) :
    joinl (X ++ R) = joinlT X ++ joinl R := by
  induction X with
  | nil => rfl
  | cons l X' ih =>
    rw [List.cons_append, joinl_cons (by simp [h]), ih, joinlT]
    simp

theorem joinlT_append (X Y : List (List Char)) :
    joinlT (X ++ Y) = joinlT X ++ joinlT Y := by
  induction X with
  | nil => rfl
  | cons l X' ih =>
    rw [List.cons_append, joinlT, ih, joinlT]
    simp

theorem joinlT_eq_joinl (X : List (List Char)) :
    joinlT X = joinl (X ++ [[]]) := by
  induction X with
  | nil => rfl
  | cons l X' ih =>
    rw [joinlT, ih, List.cons_append, joinl_cons (by simp)]

theorem takeWhile_all_ne_nl {l : List Char} (h : ∀ c ∈ l, c ≠ '\n') :
    l.takeWhile (fun c => c ≠ '\n') = l := by
  induction l with
  | nil => rfl
  | cons c t ih =>
    rw [List.takeWhile_cons, if_pos (by simp [h c (by simp)])]
    rw [ih (fun d hd => h d (by simp [hd]))]

theorem takeWhile_line {l : List Char} (h : ∀ c ∈ l, c ≠ '\n')
    (r : List Char) :
    (l ++ '\n' :: r).takeWhile (fun c => c ≠ '\n') = l := by
  induction l with
  | nil => simp [List.takeWhile_cons]
  | cons c t ih =>
    rw [List.cons_append, List.takeWhile_cons,
      if_pos (by simp [h c (by simp)])]
    rw [ih (fun d hd => h d (by simp [hd]))]

theorem dropWhile_append_nl {l : List Char} (r : List Char) :
    (l ++ '\n' :: r).dropWhile spaceTab =
      l.dropWhile spaceTab ++ '\n' :: r := by
  induction l with
  | nil =>
    simp only [List.nil_append, List.dropWhile_cons]
    rw [if_neg (by simp [spaceTab])]
    rfl
  | cons c t ih =>
    rw [List.cons_append, List.dropWhile_cons, List.dropWhile_cons]
    by_cases hc : spaceTab c = true
    · rw [if_pos hc, if_pos hc, ih]
    · rw [if_neg hc, if_neg hc, List.cons_append]

theorem dropWhile_sublist_mem {p : Char → Bool} {l : List Char} {c : Char}
    (h : c ∈ l.dropWhile p) : c ∈ l := by
  induction l with
  | nil => simp at h
  | cons a t ih =>
    rw [List.dropWhile_cons] at h
    by_cases ha : p a = true
    · rw [if_pos ha] at h
      exact List.mem_cons_of_mem _ (ih h)
    · rw [if_neg ha] at h
      exact h

theorem dropWhile_eq_drop_exists (p : Char → Bool) (l : List Char) :
    ∃ k, l.dropWhile p = l.drop k := by
  induction l with
  | nil => exact ⟨0, rfl⟩
  | cons c t ih =>
    by_cases hc : p c = true
    · obtain ⟨k, hk⟩ := ih
      exact ⟨k + 1, by rw [List.dropWhile_cons, if_pos hc, List.drop_succ_cons, hk]⟩
    · exact ⟨0, by rw [List.dropWhile_cons, if_neg hc, List.drop_zero]⟩

theorem firstIdx?_isSome_iff (pat : List Char) : ∀ (s : List Char),
    (SectionReplacer.firstIdx? pat s).isSome = true ↔
      ∃ i, pat <+: s.drop i := by
  intro s
  induction s with
  | nil =>
    rw [SectionReplacer.firstIdx?]
    by_cases hp : pat.isPrefixOf ([] : List Char) = true
    · rw [if_pos hp]
      simp only [Option.isSome_some, true_iff]
      exact ⟨0, by rw [List.drop_nil]; exact List.isPrefixOf_iff_prefix.mp hp⟩
    · rw [if_neg hp]
      constructor
      · intro hcon
        exact absurd hcon (by simp)
      · rintro ⟨i, hi⟩
        rw [List.drop_nil] at hi
        exact absurd (List.isPrefixOf_iff_prefix.mpr hi) hp
  | cons c t ih =>
    rw [SectionReplacer.firstIdx?]
    by_cases hp : pat.isPrefixOf (c :: t) = true
    · rw [if_pos hp]
      simp only [Option.isSome_some, true_iff]
      exact ⟨0, by rw [List.drop_zero]; exact List.isPrefixOf_iff_prefix.mp hp⟩
    · rw [if_neg hp]
      have hiso : ((SectionReplacer.firstIdx? pat t).map (· + 1)).isSome =
          (SectionReplacer.firstIdx? pat t).isSome := by
        cases SectionReplacer.firstIdx? pat t <;> rfl
      rw [hiso, ih]
      constructor
      · rintro ⟨i, hi⟩
        exact ⟨i + 1, by rw [List.drop_succ_cons]; exact hi⟩
      · rintro ⟨i, hi⟩
        cases i with
        | zero =>
          rw [List.drop_zero] at hi
          exact absurd (List.isPrefixOf_iff_prefix.mpr hi) hp
        | succ j =>
          rw [List.drop_succ_cons] at hi
          exact ⟨j, hi⟩

theorem containsSub_iff (pat s : List Char) :
    SectionReplacer.containsSub pat s = true ↔ ∃ i, pat <+: s.drop i := by
  rw [SectionReplacer.containsSub, firstIdx?_isSome_iff]

theorem containsSub_of_prefix_dropWhile {m l : List Char}
    (h : m.isPrefixOf (l.dropWhile spaceTab) = true) :
    SectionReplacer.containsSub m l = true := by
  rw [containsSub_iff]
  obtain ⟨k, hk⟩ := dropWhile_eq_drop_exists spaceTab l
  exact ⟨k, by rw [← hk]; exact List.isPrefixOf_iff_prefix.mp h⟩

theorem prefix_of_prefix_append_short {sM A B : List Char}
    (hp : sM <+: A ++ B) (hlen : sM.length ≤ A.length) : sM <+: A := by
  rw [List.prefix_iff_eq_take] at hp
  have h2 : sM = A.take sM.length := by
    conv_lhs => rw [hp]
    rw [List.take_append_eq_append_take, Nat.sub_eq_zero_of_le hlen,
      List.take_zero, List.append_nil]
  have h3 := List.take_prefix sM.length A
  rwa [← h2] at h3

theorem matchStart_marker {sM l : List Char} (r : List Char)
    (hl : l.dropWhile spaceTab = sM) :
    matchStart sM (l ++ '\n' :: r) = some r := by
  unfold matchStart
  rw [dropWhile_append_nl, hl]
  rw [if_pos (List.isPrefixOf_iff_prefix.mpr (List.prefix_append _ _))]
  rw [List.drop_left]
  rfl

theorem matchStart_absent {sM l : List Char} (r : List Char)
    (hcon : SectionReplacer.containsSub sM l = false)
    (hnl : ∀ c ∈ sM, c ≠ '\n') :
    matchStart sM (l ++ '\n' :: r) = none := by
  unfold matchStart
  rw [dropWhile_append_nl]
  rw [if_neg ?hnp]
  case hnp =>
    intro hp
    have hp' := List.isPrefixOf_iff_prefix.mp hp
    by_cases hlen : sM.length ≤ (l.dropWhile spaceTab).length
    · have hpre : sM <+: l.dropWhile spaceTab :=
        prefix_of_prefix_append_short hp' hlen
      have := containsSub_of_prefix_dropWhile
        (List.isPrefixOf_iff_prefix.mpr hpre)
      rw [hcon] at this
      exact absurd this (by simp)
    · push_neg at hlen
      have h1 : sM[(l.dropWhile spaceTab).length]? = some '\n' := by
        have he := prefix_getElem? hp' (i := (l.dropWhile spaceTab).length)
          hlen
        rw [← he, List.getElem?_append_right (le_refl _)]
        simp
      exact hnl _ (List.getElem?_mem h1) rfl

theorem matchStart_last {sM l : List Char} (hl : ∀ c ∈ l, c ≠ '\n') :
    matchStart sM l = none := by
  unfold matchStart
  by_cases hp : sM.isPrefixOf (l.dropWhile spaceTab) = true
  · rw [if_pos hp]
    cases hd : (l.dropWhile spaceTab).drop sM.length with
    | nil => rfl
    | cons c cs =>
      have hcin : c ∈ l := by
        have h1 : c ∈ (l.dropWhile spaceTab).drop sM.length := by
          rw [hd]; simp
        exact dropWhile_sublist_mem (List.mem_of_mem_drop h1)
      have hc : c ≠ '\n' := hl c hcin
      cases cs <;> simp [hc]
  · rw [if_neg hp]

theorem matchEnd_marker {eM l : List Char} (r : List Char)
    (hl : l.dropWhile spaceTab = eM) :
    matchEnd eM (l ++ '\n' :: r) = some (true, r) := by
  unfold matchEnd
  rw [dropWhile_append_nl, hl]
  rw [if_pos (List.isPrefixOf_iff_prefix.mpr (List.prefix_append _ _))]
  rw [List.drop_left]
  rfl

theorem matchEnd_marker_last {eM l : List Char}
    (hl : l.dropWhile spaceTab = eM) :
    matchEnd eM l = some (false, []) := by
  unfold matchEnd
  rw [hl]
  rw [if_pos (List.isPrefixOf_iff_prefix.mpr (List.prefix_refl _))]
  rw [List.drop_length]

theorem matchEnd_absent {eM l : List Char} (r : List Char)
    (hcon : SectionReplacer.containsSub eM l = false)
    (hnl : ∀ c ∈ eM, c ≠ '\n') :
    matchEnd eM (l ++ '\n' :: r) = none := by
  unfold matchEnd
  rw [dropWhile_append_nl]
  rw [if_neg ?hnp2]
  case hnp2 =>
    intro hp
    have hp' := List.isPrefixOf_iff_prefix.mp hp
    by_cases hlen : eM.length ≤ (l.dropWhile spaceTab).length
    · have hpre : eM <+: l.dropWhile spaceTab :=
        prefix_of_prefix_append_short hp' hlen
      have := containsSub_of_prefix_dropWhile
        (List.isPrefixOf_iff_prefix.mpr hpre)
      rw [hcon] at this
      exact absurd this (by simp)
    · push_neg at hlen
      have h1 : eM[(l.dropWhile spaceTab).length]? = some '\n' := by
        have he := prefix_getElem? hp' (i := (l.dropWhile spaceTab).length)
          hlen
        rw [← he, List.getElem?_append_right (le_refl _)]
        simp
      exact hnl _ (List.getElem?_mem h1) rfl

theorem matchEnd_absent_last {eM l : List Char}
    (hcon : SectionReplacer.containsSub eM l = false) :
    matchEnd eM l = none := by
  unfold matchEnd
  rw [if_neg ?hnp3]
  case hnp3 =>
    intro hp
    have := containsSub_of_prefix_dropWhile hp
    rw [hcon] at this
    exact absurd this (by simp)

theorem matchEnd_nil {eM : List Char} (hne : eM ≠ []) :
    matchEnd eM [] = none := by
  unfold matchEnd
  rw [if_neg ?hnp4]
  case hnp4 =>
    intro hp
    have := List.isPrefixOf_iff_prefix.mp hp
    exact hne (List.prefix_nil.mp (by simpa using this))

theorem matchStart_nil (sM : List Char) : matchStart sM [] = none := by
  unfold matchStart
  by_cases hp : sM.isPrefixOf (([] : List Char).dropWhile spaceTab) = true
  · rw [if_pos hp]
    have h0 : (([] : List Char).dropWhile spaceTab).drop sM.length = [] := by
      simp
    rw [h0]
  · rw [if_neg hp]

theorem findEnd_step {eM s : List Char} {x : Char} {rest : List Char}
    (hm : matchEnd eM s = none)
    (hd : s.drop (s.takeWhile (fun c => c ≠ '\n')).length = x :: rest) :
    findEnd eM s = (findEnd eM rest).map
      (fun p => (s.takeWhile (fun c => c ≠ '\n') ++ '\n' :: p.1, p.2)) := by
  rw [findEnd, hm]
  simp only []
  split
  · rename_i heq
    rw [hd] at heq
    exact absurd heq (by simp)
  · rename_i x' rest' heq
    rw [hd] at heq
    have hx : x = x' := by injection heq
    have hr : rest = rest' := by injection heq
    subst hx hr
    cases hfe : findEnd eM rest with
    | none => simp [hfe]
    | some p => obtain ⟨cap, b, r⟩ := p; simp [hfe]

theorem findEnd_last {eM s : List Char}
    (hm : matchEnd eM s = none)
    (hd : s.drop (s.takeWhile (fun c => c ≠ '\n')).length = []) :
    findEnd eM s = none := by
  rw [findEnd, hm]
  simp only []
  split
  · rfl
  · rename_i x' rest' heq
    rw [hd] at heq
    exact absurd heq (by simp)

theorem findEnd_hit {eM s : List Char} {b : Bool} {r : List Char}
    (hm : matchEnd eM s = some (b, r)) :
    findEnd eM s = some ([], b, r) := by
  rw [findEnd, hm]

theorem stripGo_skip1 {sM eM s : List Char} {x : Char} {rest : List Char}
    (hms : matchStart sM s = none)
    (hd : s.drop (s.takeWhile (fun c => c ≠ '\n')).length = x :: rest) :
    stripGo sM eM s =
      s.takeWhile (fun c => c ≠ '\n') ++ '\n' :: stripGo sM eM rest := by
  rw [stripGo, hms]
  simp only []
  split
  · rename_i heq
    rw [hd] at heq
    exact absurd heq (by simp)
  · rename_i x' rest' heq
    rw [hd] at heq
    have hx : x = x' := by injection heq
    have hr : rest = rest' := by injection heq
    subst hx hr
    rfl

theorem stripGo_skip2 {sM eM s a : List Char} {x : Char} {rest : List Char}
    (hms : matchStart sM s = some a) (hfe : findEnd eM a = none)
    (hd : s.drop (s.takeWhile (fun c => c ≠ '\n')).length = x :: rest) :
    stripGo sM eM s =
      s.takeWhile (fun c => c ≠ '\n') ++ '\n' :: stripGo sM eM rest := by
  rw [stripGo, hms]
  simp only []
  split
  · rename_i heq
    rw [hfe] at heq
    exact absurd heq (by simp)
  · rename_i heq
    rw [hfe] at heq
    exact absurd heq (by simp)
  · split
    · rename_i heq
      rw [hd] at heq
      exact absurd heq (by simp)
    · rename_i x' rest' heq
      rw [hd] at heq
      have hx : x = x' := by injection heq
      have hr : rest = rest' := by injection heq
      subst hx hr
      rfl

theorem stripGo_last1 {sM eM s : List Char}
    (hms : matchStart sM s = none)
    (hd : s.drop (s.takeWhile (fun c => c ≠ '\n')).length = []) :
    stripGo sM eM s = s := by
  rw [stripGo, hms]
  simp only []
  split
  · rfl
  · rename_i x' rest' heq
    rw [hd] at heq
    exact absurd heq (by simp)

theorem stripGo_last2 {sM eM s a : List Char}
    (hms : matchStart sM s = some a) (hfe : findEnd eM a = none)
    (hd : s.drop (s.takeWhile (fun c => c ≠ '\n')).length = []) :
    stripGo sM eM s = s := by
  rw [stripGo, hms]
  simp only []
  split
  · rename_i heq
    rw [hfe] at heq
    exact absurd heq (by simp)
  · rename_i heq
    rw [hfe] at heq
    exact absurd heq (by simp)
  · split
    · rfl
    · rename_i x' rest' heq
      rw [hd] at heq
      exact absurd heq (by simp)

theorem stripGo_hit_true {sM eM s a cap r : List Char}
    (hms : matchStart sM s = some a)
    (hfe : findEnd eM a = some (cap, true, r)) :
    stripGo sM eM s = cap ++ stripGo sM eM r := by
  rw [stripGo, hms]
  simp only []
  split
  · rename_i heq
    rw [hfe] at heq
    simp only [Option.some.injEq, Prod.mk.injEq] at heq
    obtain ⟨h1, -, h2⟩ := heq
    subst h1 h2
    rfl
  · rename_i heq
    rw [hfe] at heq
    simp at heq
  · rename_i heq
    rw [hfe] at heq
    exact absurd heq (by simp)

theorem stripGo_hit_false_eof {sM eM s a cap r : List Char}
    (hms : matchStart sM s = some a)
    (hfe : findEnd eM a = some (cap, false, r))
    (hd : r.drop (r.takeWhile (fun c => c ≠ '\n')).length = []) :
    stripGo sM eM s = cap ++ r := by
  rw [stripGo, hms]
  simp only []
  split
  · rename_i heq
    rw [hfe] at heq
    simp at heq
  · rename_i heq
    rw [hfe] at heq
    simp only [Option.some.injEq, Prod.mk.injEq] at heq
    obtain ⟨h1, -, h2⟩ := heq
    subst h1 h2
    split
    · rfl
    · rename_i x' rest' heq2
      rw [hd] at heq2
      exact absurd heq2 (by simp)
  · rename_i heq
    rw [hfe] at heq
    exact absurd heq (by simp)

theorem stripGo_nil (sM eM : List Char) : stripGo sM eM [] = [] := by
  apply stripGo_last1 (matchStart_nil sM)
  simp

/-- Witness for C3 amended: a concrete `//`-style file. -/
theorem C3_replaceSection_amended_witness :
    replaceSection ['A'] ['N', '\n']
      (markedContent MStyle.slash ['A'] ['p', '\n'] [' ', ' ']
        ['\n', 'm', '\n'] [] ['q', '\n']) =
      Except.ok (['p', '\n'] ++ ['N', '\n'] ++ ['q', '\n']) ∧
    hasSection ['A'] (['p', '\n'] ++ ['N', '\n'] ++ ['q', '\n']) = false :=
  C3_replaceSection_amended MStyle.slash ['A'] ['N', '\n'] ['p', '\n']
    [' ', ' '] ['\n', 'm', '\n'] [] ['q', '\n']
    (Or.inr ⟨['p'], rfl⟩) (by decide) (by decide) (by decide)
    (by decide) (by decide) (by decide) (by decide)

theorem line_drop {l : List Char} (r : List Char) (h : ∀ c ∈ l, c ≠ '\n') :
    (l ++ '\n' :: r).drop
      ((l ++ '\n' :: r).takeWhile (fun c => c ≠ '\n')).length = '\n' :: r := by
  rw [takeWhile_line h, List.drop_left]

theorem line_drop_last {l : List Char} (h : ∀ c ∈ l, c ≠ '\n') :
    l.drop (l.takeWhile (fun c => c ≠ '\n')).length = [] := by
  rw [takeWhile_all_ne_nl h, List.drop_length]

theorem findEnd_absent {eM : List Char} (hene : eM ≠ [])
    (henl : ∀ c ∈ eM, c ≠ '\n') :
    ∀ ls : List (List Char), NlFree ls →
    (∀ l ∈ ls, SectionReplacer.containsSub eM l = false) →
    findEnd eM (joinl ls) = none := by
  intro ls
  induction ls with
  | nil =>
    intro _ _
    exact findEnd_last (matchEnd_nil hene) (by simp [joinl])
  | cons l ls' ih =>
    intro hnf hab
    have hl : ∀ c ∈ l, c ≠ '\n' := hnf l (List.mem_cons_self _ _)
    cases ls' with
    | nil =>
      show findEnd eM l = none
      exact findEnd_last (matchEnd_absent_last (hab l (List.mem_cons_self _ _)))
        (line_drop_last hl)
    | cons b bs =>
      rw [joinl_cons (show (b :: bs : List (List Char)) ≠ [] from by simp)]
      rw [findEnd_step
        (matchEnd_absent _ (hab l (List.mem_cons_self _ _)) henl)
        (line_drop _ hl)]
      rw [ih (fun x hx => hnf x (List.mem_cons_of_mem _ hx))
        (fun x hx => hab x (List.mem_cons_of_mem _ hx))]
      rfl

theorem findEnd_found {eM : List Char} (henl : ∀ c ∈ eM, c ≠ '\n') :
    ∀ (M : List (List Char)) (e : List Char) (R : List (List Char)),
    NlFree M → (∀ l ∈ M, SectionReplacer.containsSub eM l = false) →
    e.dropWhile spaceTab = eM → R ≠ [] →
    findEnd eM (joinl (M ++ e :: R)) = some (joinlT M, true, joinl R) := by
  intro M
  induction M with
  | nil =>
    intro e R _ _ he hR
    rw [List.nil_append, joinl_cons hR]
    rw [findEnd_hit (matchEnd_marker (joinl R) he)]
    rfl
  | cons m M' ih =>
    intro e R hnf hab he hR
    have hm : ∀ c ∈ m, c ≠ '\n' := hnf m (List.mem_cons_self _ _)
    rw [List.cons_append,
      joinl_cons (show M' ++ e :: R ≠ [] from by simp)]
    rw [findEnd_step
      (matchEnd_absent _ (hab m (List.mem_cons_self _ _)) henl)
      (line_drop _ hm)]
    rw [ih e R (fun x hx => hnf x (List.mem_cons_of_mem _ hx))
      (fun x hx => hab x (List.mem_cons_of_mem _ hx)) he hR]
    simp [takeWhile_line hm, joinlT]
    simpa using takeWhile_line hm (joinl (M' ++ e :: R))

theorem findEnd_found_eof {eM : List Char} (henl : ∀ c ∈ eM, c ≠ '\n') :
    ∀ (M : List (List Char)) (e : List Char),
    NlFree M → (∀ l ∈ M, SectionReplacer.containsSub eM l = false) →
    e.dropWhile spaceTab = eM →
    findEnd eM (joinl (M ++ [e])) = some (joinlT M, false, []) := by
  intro M
  induction M with
  | nil =>
    intro e _ _ he
    rw [List.nil_append]
    show findEnd eM e = some ([], false, [])
    rw [findEnd_hit (matchEnd_marker_last he)]
  | cons m M' ih =>
    intro e hnf hab he
    have hm : ∀ c ∈ m, c ≠ '\n' := hnf m (List.mem_cons_self _ _)
    rw [List.cons_append,
      joinl_cons (show M' ++ [e] ≠ [] from by simp)]
    rw [findEnd_step
      (matchEnd_absent _ (hab m (List.mem_cons_self _ _)) henl)
      (line_drop _ hm)]
    rw [ih e (fun x hx => hnf x (List.mem_cons_of_mem _ hx))
      (fun x hx => hab x (List.mem_cons_of_mem _ hx)) he]
    simp [takeWhile_line hm, joinlT]
    simpa using takeWhile_line hm (joinl (M' ++ [e]))

theorem stripGo_absent {sM eM : List Char} (hsnl : ∀ c ∈ sM, c ≠ '\n') :
    ∀ ls : List (List Char), NlFree ls →
    (∀ l ∈ ls, SectionReplacer.containsSub sM l = false) →
    stripGo sM eM (joinl ls) = joinl ls := by
  intro ls
  induction ls with
  | nil =>
    intro _ _
    exact stripGo_nil _ _
  | cons l ls' ih =>
    intro hnf hab
    have hl : ∀ c ∈ l, c ≠ '\n' := hnf l (List.mem_cons_self _ _)
    cases ls' with
    | nil =>
      show stripGo sM eM l = l
      exact stripGo_last1 (matchStart_last hl) (line_drop_last hl)
    | cons b bs =>
      rw [joinl_cons (show (b :: bs : List (List Char)) ≠ [] from by simp)]
      rw [stripGo_skip1
        (matchStart_absent _ (hab l (List.mem_cons_self _ _)) hsnl)
        (line_drop _ hl)]
      rw [takeWhile_line hl]
      rw [ih (fun x hx => hnf x (List.mem_cons_of_mem _ hx))
        (fun x hx => hab x (List.mem_cons_of_mem _ hx))]

theorem stripGo_prefix_skip {sM eM : List Char}
    (hsnl : ∀ c ∈ sM, c ≠ '\n') :
    ∀ (P Q : List (List Char)), Q ≠ [] → NlFree P →
    (∀ l ∈ P, SectionReplacer.containsSub sM l = false) →
    stripGo sM eM (joinl (P ++ Q)) = joinlT P ++ stripGo sM eM (joinl Q) := by
  intro P
  induction P with
  | nil =>
    intro Q _ _ _
    rfl
  | cons l P' ih =>
    intro Q hQ hnf hab
    have hl : ∀ c ∈ l, c ≠ '\n' := hnf l (List.mem_cons_self _ _)
    rw [List.cons_append,
      joinl_cons (show P' ++ Q ≠ [] from by simp [List.append_eq_nil, hQ])]
    rw [stripGo_skip1
      (matchStart_absent _ (hab l (List.mem_cons_self _ _)) hsnl)
      (line_drop _ hl)]
    rw [takeWhile_line hl]
    rw [ih Q hQ (fun x hx => hnf x (List.mem_cons_of_mem _ hx))
      (fun x hx => hab x (List.mem_cons_of_mem _ hx))]
    show l ++ '\n' :: (joinlT P' ++ stripGo sM eM (joinl Q)) =
      (l ++ '\n' :: joinlT P') ++ stripGo sM eM (joinl Q)
    simp

theorem stripGo_nofollow {sM eM : List Char}
    (hsnl : ∀ c ∈ sM, c ≠ '\n') (hene : eM ≠ [])
    (henl : ∀ c ∈ eM, c ≠ '\n')
    (P : List (List Char)) (s : List Char) (Q : List (List Char))
    (hnf : NlFree (P ++ s :: Q))
    (hPs : ∀ l ∈ P, SectionReplacer.containsSub sM l = false)
    (hs : s.dropWhile spaceTab = sM)
    (hQs : ∀ l ∈ Q, SectionReplacer.containsSub sM l = false)
    (hQe : ∀ l ∈ Q, SectionReplacer.containsSub eM l = false) :
    stripGo sM eM (joinl (P ++ s :: Q)) = joinl (P ++ s :: Q) := by
  have hnfP : NlFree P := fun x hx => hnf x (List.mem_append_left _ hx)
  have hnfQ : NlFree Q := fun x hx =>
    hnf x (List.mem_append_right _ (List.mem_cons_of_mem _ hx))
  have hsnf : ∀ c ∈ s, c ≠ '\n' :=
    hnf s (List.mem_append_right _ (List.mem_cons_self _ _))
  rw [stripGo_prefix_skip hsnl P (s :: Q) (by simp) hnfP hPs]
  cases Q with
  | nil =>
    show joinlT P ++ stripGo sM eM s = joinl (P ++ [s])
    rw [stripGo_last1 (matchStart_last hsnf) (line_drop_last hsnf)]
    rw [joinl_append (show ([s] : List (List Char)) ≠ [] from by simp)]
    rfl
  | cons q Q' =>
    rw [joinl_cons (show (q :: Q' : List (List Char)) ≠ [] from by simp)]
    rw [stripGo_skip2 (matchStart_marker _ hs)
      (findEnd_absent hene henl (q :: Q') hnfQ hQe)
      (line_drop _ hsnf)]
    rw [takeWhile_line hsnf]
    rw [stripGo_absent hsnl (q :: Q') hnfQ hQs]
    rw [joinl_append (show s :: q :: Q' ≠ [] from by simp),
      joinl_cons (show (q :: Q' : List (List Char)) ≠ [] from by simp)]

theorem stripGo_strip_mid {sM eM : List Char}
    (hsnl : ∀ c ∈ sM, c ≠ '\n') (henl : ∀ c ∈ eM, c ≠ '\n')
    (P : List (List Char)) (s : List Char) (M : List (List Char))
    (e : List Char) (R : List (List Char))
    (hnf : NlFree (P ++ s :: (M ++ e :: R)))
    (hPs : ∀ l ∈ P, SectionReplacer.containsSub sM l = false)
    (hs : s.dropWhile spaceTab = sM)
    (hMe : ∀ l ∈ M, SectionReplacer.containsSub eM l = false)
    (he : e.dropWhile spaceTab = eM)
    (hRs : ∀ l ∈ R, SectionReplacer.containsSub sM l = false)
    (hR : R ≠ []) :
    stripGo sM eM (joinl (P ++ s :: (M ++ e :: R))) =
      joinl (P ++ M ++ R) := by
  have hnfP : NlFree P := fun x hx => hnf x (List.mem_append_left _ hx)
  have hnfM : NlFree M := fun x hx => hnf x
    (List.mem_append_right _
      (List.mem_cons_of_mem _ (List.mem_append_left _ hx)))
  have hnfR : NlFree R := fun x hx => hnf x
    (List.mem_append_right _ (List.mem_cons_of_mem _
      (List.mem_append_right _ (List.mem_cons_of_mem _ hx))))
  have hsnf : ∀ c ∈ s, c ≠ '\n' :=
    hnf s (List.mem_append_right _ (List.mem_cons_self _ _))
  rw [stripGo_prefix_skip hsnl P (s :: (M ++ e :: R)) (by simp) hnfP hPs]
  rw [joinl_cons (show M ++ e :: R ≠ [] from by simp)]
  rw [stripGo_hit_true (matchStart_marker _ hs)
    (findEnd_found henl M e R hnfM hMe he hR)]
  rw [stripGo_absent hsnl R hnfR hRs]
  rw [joinl_append hR, joinlT_append]
  simp

theorem stripGo_strip_eof {sM eM : List Char}
    (hsnl : ∀ c ∈ sM, c ≠ '\n') (henl : ∀ c ∈ eM, c ≠ '\n')
    (P : List (List Char)) (s : List Char) (M : List (List Char))
    (e : List Char)
    (hnf : NlFree (P ++ s :: (M ++ [e])))
    (hPs : ∀ l ∈ P, SectionReplacer.containsSub sM l = false)
    (hs : s.dropWhile spaceTab = sM)
    (hMe : ∀ l ∈ M, SectionReplacer.containsSub eM l = false)
    (he : e.dropWhile spaceTab = eM) :
    stripGo sM eM (joinl (P ++ s :: (M ++ [e]))) =
      joinl (P ++ M ++ [[]]) := by
  have hnfP : NlFree P := fun x hx => hnf x (List.mem_append_left _ hx)
  have hnfM : NlFree M := fun x hx => hnf x
    (List.mem_append_right _
      (List.mem_cons_of_mem _ (List.mem_append_left _ hx)))
  have hsnf : ∀ c ∈ s, c ≠ '\n' :=
    hnf s (List.mem_append_right _ (List.mem_cons_self _ _))
  rw [stripGo_prefix_skip hsnl P (s :: (M ++ [e])) (by simp) hnfP hPs]
  rw [joinl_cons (show M ++ [e] ≠ [] from by simp)]
  rw [stripGo_hit_false_eof (matchStart_marker _ hs)
    (findEnd_found_eof henl M e hnfM hMe he) (by simp)]
  rw [← joinlT_eq_joinl, joinlT_append]
  simp

theorem NlFree_of_subset {A B : List (List Char)}
    (hsub : ∀ l ∈ A, l ∈ B) (h : NlFree B) : NlFree A :=
  fun x hx => h x (hsub x hx)

theorem countP_le_one_split {p : List Char → Bool} {ls : List (List Char)}
    (hle : ls.countP p ≤ 1) {X : List (List Char)} {y : List Char}
    {Z : List (List Char)} (heq : ls = X ++ y :: Z) (hy : p y = true) :
    (∀ l ∈ X, p l = false) ∧ (∀ l ∈ Z, p l = false) := by
  subst heq
  rw [List.countP_append, List.countP_cons, hy] at hle
  simp only [if_pos] at hle
  have hX : X.countP p = 0 := by omega
  have hZ : Z.countP p = 0 := by omega
  constructor
  · intro l hl
    have := List.countP_eq_zero.mp hX l hl
    simpa using this
  · intro l hl
    have := List.countP_eq_zero.mp hZ l hl
    simpa using this

theorem first_split {p : List Char → Bool} :
    ∀ {ls : List (List Char)}, (∃ l ∈ ls, p l = true) →
    ∃ P s Q, ls = P ++ s :: Q ∧ p s = true ∧ ∀ l ∈ P, p l = false := by
  intro ls
  induction ls with
  | nil =>
    rintro ⟨l, hl, -⟩
    simp at hl
  | cons a as ih =>
    intro hex
    by_cases ha : p a = true
    · exact ⟨[], a, as, rfl, ha, by simp⟩
    · obtain ⟨l, hl, hpl⟩ := hex
      have hl' : l ∈ as := by
        rcases List.mem_cons.mp hl with rfl | h
        · exact absurd hpl ha
        · exact h
      obtain ⟨P, s, Q, heq, hs, hP⟩ := ih ⟨l, hl', hpl⟩
      refine ⟨a :: P, s, Q, by rw [heq]; rfl, hs, ?pf⟩
      intro x hx
      rcases List.mem_cons.mp hx with rfl | h
      · simpa using ha
      · exact hP x h

theorem containsSub_nil {m : List Char} (h : m ≠ []) :
    SectionReplacer.containsSub m [] = false := by
  rw [SectionReplacer.containsSub, SectionReplacer.firstIdx?]
  rw [if_neg ?hnp5]
  case hnp5 =>
    intro hp
    exact h (List.prefix_nil.mp (List.isPrefixOf_iff_prefix.mp hp))
  rfl

theorem NoMatch_of_no_start {sM eM : List Char} :
    ∀ {ls : List (List Char)},
    (∀ l ∈ ls, SectionReplacer.containsSub sM l = false) →
    NoMatch sM eM ls := by
  intro ls
  induction ls with
  | nil =>
    intro _
    trivial
  | cons a as ih =>
    intro h
    exact ⟨fun hc => absurd hc (by simp [h a (List.mem_cons_self _ _)]),
      ih (fun x hx => h x (List.mem_cons_of_mem _ hx))⟩

theorem NoMatch_sublist {sM eM : List Char} :
    ∀ {ls' ls : List (List Char)}, List.Sublist ls' ls →
    NoMatch sM eM ls → NoMatch sM eM ls' := by
  intro ls' ls hsub
  induction hsub with
  | slnil =>
    intro _
    trivial
  | cons a h ih =>
    intro hn
    exact ih hn.2
  | cons₂ a h ih =>
    intro hn
    exact ⟨fun hc q hq => hn.1 hc q (h.subset hq), ih hn.2⟩

theorem NoMatch_pads {sM eM : List Char} (hene : eM ≠ []) :
    ∀ {pads : List (List Char)}, (∀ l ∈ pads, l = []) →
    NoMatch sM eM pads := by
  intro pads
  induction pads with
  | nil =>
    intro _
    trivial
  | cons a as ih =>
    intro hp
    refine ⟨fun hc q hq => ?q1,
      ih (fun x hx => hp x (List.mem_cons_of_mem _ hx))⟩
    rw [hp q (List.mem_cons_of_mem _ hq)]
    exact containsSub_nil hene

theorem NoMatch_append_pads {sM eM : List Char} (hene : eM ≠ []) :
    ∀ {ls pads : List (List Char)},
    NoMatch sM eM ls → (∀ l ∈ pads, l = []) →
    NoMatch sM eM (ls ++ pads) := by
  intro ls pads
  induction ls with
  | nil =>
    intro _ hp
    exact NoMatch_pads hene hp
  | cons a as ih =>
    intro hn hp
    refine ⟨fun hc q hq => ?q2, ih hn.2 hp⟩
    rcases List.mem_append.mp hq with h | h
    · exact hn.1 hc q h
    · rw [hp q h]
      exact containsSub_nil hene

theorem NoMatch_elim {sM eM : List Char} :
    ∀ {P : List (List Char)} {s : List Char} {Q : List (List Char)},
    NoMatch sM eM (P ++ s :: Q) →
    SectionReplacer.containsSub sM s = true →
    ∀ l ∈ Q, SectionReplacer.containsSub eM l = false := by
  intro P
  induction P with
  | nil =>
    intro s Q hn hs
    exact hn.1 hs
  | cons a P' ih =>
    intro s Q hn hs
    exact ih hn.2 hs

theorem NoMatch_mk {sM eM : List Char} :
    ∀ {P : List (List Char)} {s : List Char} {Q : List (List Char)},
    (∀ l ∈ P, SectionReplacer.containsSub sM l = false) →
    (∀ l ∈ Q, SectionReplacer.containsSub sM l = false) →
    (∀ l ∈ Q, SectionReplacer.containsSub eM l = false) →
    NoMatch sM eM (P ++ s :: Q) := by
  intro P
  induction P with
  | nil =>
    intro s Q _ hQs hQe
    exact ⟨fun _ => hQe, NoMatch_of_no_start hQs⟩
  | cons a P' ih =>
    intro s Q hP hQs hQe
    refine ⟨fun hc q hq => ?q3,
      ih (fun x hx => hP x (List.mem_cons_of_mem _ hx)) hQs hQe⟩
    exact absurd hc (by simp [hP a (List.mem_cons_self _ _)])

theorem NlFree_of_sub {ls' ls pads : List (List Char)}
    (hsub : List.Sublist ls' (ls ++ pads)) (hp : ∀ l ∈ pads, l = [])
    (h : NlFree ls) : NlFree ls' := by
  intro x hx
  rcases List.mem_append.mp (hsub.subset hx) with h' | h'
  · exact h x h'
  · rw [hp x h']
    intro c hc
    simp at hc

theorem GoodPair_of_sub {sM eM : List Char} (hsne : sM ≠ []) (hene : eM ≠ [])
    {ls' ls pads : List (List Char)} (hsub : List.Sublist ls' (ls ++ pads))
    (hp : ∀ l ∈ pads, l = []) (hgp : GoodPair sM eM ls) :
    GoodPair sM eM ls' := by
  obtain ⟨h1, h2, h3⟩ := hgp
  have hpads1 : pads.countP
      (fun l => SectionReplacer.containsSub sM l) = 0 := by
    rw [List.countP_eq_zero]
    intro a ha
    rw [hp a ha, containsSub_nil hsne]
    simp
  have hpads2 : pads.countP
      (fun l => SectionReplacer.containsSub eM l) = 0 := by
    rw [List.countP_eq_zero]
    intro a ha
    rw [hp a ha, containsSub_nil hene]
    simp
  refine ⟨?g1, ?g2, ?g3⟩
  · intro l hl
    rcases List.mem_append.mp (hsub.subset hl) with h | h
    · exact h1 l h
    · rw [hp l h]
      constructor
      · intro hc
        rw [containsSub_nil hsne] at hc
        exact absurd hc (by simp)
      · intro hc
        rw [containsSub_nil hene] at hc
        exact absurd hc (by simp)
  · have hc : ls'.countP (fun l => SectionReplacer.containsSub sM l) ≤
        (ls ++ pads).countP (fun l => SectionReplacer.containsSub sM l) :=
      hsub.countP_le _
    rw [List.countP_append, hpads1] at hc
    omega
  · have hc : ls'.countP (fun l => SectionReplacer.containsSub eM l) ≤
        (ls ++ pads).countP (fun l => SectionReplacer.containsSub eM l) :=
      hsub.countP_le _
    rw [List.countP_append, hpads2] at hc
    omega

theorem stripGo_outcome {sM eM : List Char} (hsne : sM ≠ []) (hene : eM ≠ [])
    (hsnl : ∀ c ∈ sM, c ≠ '\n') (henl : ∀ c ∈ eM, c ≠ '\n')
    (ls : List (List Char)) (hnf : NlFree ls) (hgp : GoodPair sM eM ls) :
    ∃ ls', stripGo sM eM (joinl ls) = joinl ls' ∧
      List.Sublist ls' (ls ++ [[]]) ∧ NoMatch sM eM ls' ∧
      (NoMatch sM eM ls → ls' = ls) := by
  obtain ⟨hdisc, hcs, hce⟩ := hgp
  by_cases hex : ∃ l ∈ ls, SectionReplacer.containsSub sM l = true
  · obtain ⟨P, s, Q, heq, hsC, hPs⟩ := first_split hex
    have hsline : s.dropWhile spaceTab = sM :=
      (hdisc s (by rw [heq]; simp)).1 hsC
    have hQs : ∀ l ∈ Q, SectionReplacer.containsSub sM l = false :=
      (countP_le_one_split hcs heq hsC).2
    by_cases hQe : ∃ l ∈ Q, SectionReplacer.containsSub eM l = true
    · obtain ⟨M, e, R, heqQ, heC, hMe⟩ := first_split hQe
      have heline : e.dropWhile spaceTab = eM :=
        (hdisc e (by rw [heq, heqQ]; simp)).2 heC
      have hRs : ∀ l ∈ R, SectionReplacer.containsSub sM l = false :=
        fun x hx => hQs x (by rw [heqQ]; simp [hx])
      have hMs : ∀ l ∈ M, SectionReplacer.containsSub sM l = false :=
        fun x hx => hQs x (by rw [heqQ]; simp [hx])
      have hnfls : NlFree (P ++ s :: (M ++ e :: R)) := by
        rw [← heqQ, ← heq]
        exact hnf
      have hcontra : NoMatch sM eM ls → False := by
        intro hnm
        have helim := NoMatch_elim (heq ▸ hnm) hsC
        have he' := helim e (by rw [heqQ]; simp)
        rw [heC] at he'
        exact absurd he' (by simp)
      cases R with
      | nil =>
        refine ⟨P ++ M ++ [[]], ?e1, ?e2, ?e3, fun hnm => absurd hnm
          (fun h => hcontra h)⟩
        · rw [heq, heqQ]
          exact stripGo_strip_eof hsnl henl P s M e hnfls hPs hsline hMe
            heline
        · rw [heq, heqQ]
          have h1 : List.Sublist M (s :: (M ++ [e])) :=
            (List.sublist_append_left M [e]).cons s
          have h2 : List.Sublist ((P ++ M) ++ [[]])
              ((P ++ (s :: (M ++ [e]))) ++ [[]]) :=
            ((List.Sublist.refl P).append h1).append (List.Sublist.refl [[]])
          simpa using h2
        · apply NoMatch_of_no_start
          intro l hl
          simp only [List.append_assoc, List.mem_append, List.mem_cons,
            List.not_mem_nil, or_false] at hl
          rcases hl with h | h | h
          · exact hPs l h
          · exact hMs l h
          · rw [h]
            exact containsSub_nil hsne
      | cons r R' =>
        refine ⟨P ++ M ++ (r :: R'), ?f1, ?f2, ?f3, fun hnm => absurd hnm
          (fun h => hcontra h)⟩
        · rw [heq, heqQ]
          exact stripGo_strip_mid hsnl henl P s M e (r :: R') hnfls hPs
            hsline hMe heline hRs (by simp)
        · rw [heq, heqQ]
          have h1 : List.Sublist (M ++ (r :: R'))
              (s :: (M ++ (e :: r :: R'))) :=
            ((List.Sublist.refl M).append
              ((List.Sublist.refl (r :: R')).cons e)).cons s
          have h2 : List.Sublist (P ++ (M ++ (r :: R')))
              (P ++ (s :: (M ++ (e :: r :: R')))) :=
            (List.Sublist.refl P).append h1
          have h3 : List.Sublist (P ++ (s :: (M ++ (e :: r :: R'))))
              ((P ++ (s :: (M ++ (e :: r :: R')))) ++ [[]]) :=
            List.sublist_append_left _ _
          have h4 := h2.trans h3
          simpa using h4
        · apply NoMatch_of_no_start
          intro l hl
          simp only [List.append_assoc, List.mem_append, List.mem_cons] at hl
          rcases hl with h | h | h
          · exact hPs l h
          · exact hMs l h
          · exact hRs l (by simpa using h)
    · push_neg at hQe
      have hQe' : ∀ l ∈ Q, SectionReplacer.containsSub eM l = false :=
        fun x hx => by simpa using hQe x hx
      refine ⟨ls, ?g1, List.sublist_append_left _ _, ?g3, fun _ => rfl⟩
      · rw [heq]
        exact stripGo_nofollow hsnl hene henl P s Q (heq ▸ hnf) hPs hsline
          hQs hQe'
      · rw [heq]
        exact NoMatch_mk hPs hQs hQe'
  · push_neg at hex
    have hab : ∀ l ∈ ls, SectionReplacer.containsSub sM l = false :=
      fun x hx => by simpa using hex x hx
    exact ⟨ls, stripGo_absent hsnl ls hnf hab,
      List.sublist_append_left _ _, NoMatch_of_no_start hab, fun _ => rfl⟩

theorem cleanupFile_eq_stripPairs (names : List (List Char)) (c : List Char) :
    cleanupFile names c = stripPairs (pairsOf names) c := by
  induction names generalizing c with
  | nil => rfl
  | cons n ns ih =>
    show cleanupFile ns (stripName n c) =
      stripPairs (stylePairs n ++ pairsOf ns) c
    rw [ih, stripPairs, stripPairs, List.foldl_append]
    rfl

theorem mem_pairsOf {p : List Char × List Char} :
    ∀ {names : List (List Char)}, p ∈ pairsOf names →
    ∃ n ∈ names, ∃ σ : MStyle, p = (startMarker σ n, endMarker σ n) := by
  intro names
  induction names with
  | nil =>
    intro h
    simp [pairsOf] at h
  | cons n ns ih =>
    intro h
    rcases List.mem_append.mp h with h | h
    · simp only [stylePairs, List.mem_cons, List.not_mem_nil, or_false] at h
      rcases h with h | h | h
      · exact ⟨n, List.mem_cons_self _ _, MStyle.slash, h⟩
      · exact ⟨n, List.mem_cons_self _ _, MStyle.jsx, h⟩
      · exact ⟨n, List.mem_cons_self _ _, MStyle.hash, h⟩
    · obtain ⟨m, hm, σ, hσ⟩ := ih h
      exact ⟨m, List.mem_cons_of_mem _ hm, σ, hσ⟩

theorem stripPairs_outcome :
    ∀ (ps : List (List Char × List Char)) (ls : List (List Char)),
    (∀ p ∈ ps, p.1 ≠ [] ∧ p.2 ≠ [] ∧ (∀ c ∈ p.1, c ≠ '\n') ∧
      (∀ c ∈ p.2, c ≠ '\n')) →
    NlFree ls → (∀ p ∈ ps, GoodPair p.1 p.2 ls) →
    ∃ ls' pads, stripPairs ps (joinl ls) = joinl ls' ∧
      (∀ l ∈ pads, l = []) ∧ List.Sublist ls' (ls ++ pads) ∧
      ∀ p ∈ ps, NoMatch p.1 p.2 ls' := by
  intro ps
  induction ps with
  | nil =>
    intro ls _ _ _
    exact ⟨ls, [], rfl, by simp, by simpa using List.Sublist.refl ls,
      by simp⟩
  | cons p ps' ih =>
    intro ls hmk hnf hgp
    obtain ⟨hs1, hs2, hs3, hs4⟩ := hmk p (List.mem_cons_self _ _)
    obtain ⟨ls1, heq1, hsub1, hnm1, -⟩ :=
      stripGo_outcome hs1 hs2 hs3 hs4 ls hnf (hgp p (List.mem_cons_self _ _))
    have hnf1 : NlFree ls1 := NlFree_of_sub hsub1 (by simp) hnf
    have hgp1 : ∀ q ∈ ps', GoodPair q.1 q.2 ls1 := fun q hq =>
      GoodPair_of_sub (hmk q (List.mem_cons_of_mem _ hq)).1
        (hmk q (List.mem_cons_of_mem _ hq)).2.1 hsub1 (by simp)
        (hgp q (List.mem_cons_of_mem _ hq))
    obtain ⟨ls', pads', heq2, hp', hsub2, hnm'⟩ :=
      ih ls1 (fun q hq => hmk q (List.mem_cons_of_mem _ hq)) hnf1 hgp1
    refine ⟨ls', [[]] ++ pads', ?g1, ?g2, ?g3, ?g4⟩
    · show stripPairs ps' (stripGo p.1 p.2 (joinl ls)) = joinl ls'
      rw [heq1, heq2]
    · intro l hl
      rcases List.mem_append.mp hl with h | h
      · simpa using h
      · exact hp' l h
    · have h1 : List.Sublist (ls1 ++ pads') ((ls ++ [[]]) ++ pads') :=
        hsub1.append (List.Sublist.refl pads')
      have h2 := hsub2.trans h1
      simpa using h2
    · intro q hq
      rcases List.mem_cons.mp hq with rfl | hq'
      · have hA : NoMatch q.1 q.2 (ls1 ++ pads') :=
          NoMatch_append_pads (hmk q (List.mem_cons_self _ _)).2.1 hnm1 hp'
        exact NoMatch_sublist hsub2 hA
      · exact hnm' q hq'

theorem stripPairs_id :
    ∀ (ps : List (List Char × List Char)) (ls : List (List Char)),
    (∀ p ∈ ps, p.1 ≠ [] ∧ p.2 ≠ [] ∧ (∀ c ∈ p.1, c ≠ '\n') ∧
      (∀ c ∈ p.2, c ≠ '\n')) →
    NlFree ls → (∀ p ∈ ps, GoodPair p.1 p.2 ls) →
    (∀ p ∈ ps, NoMatch p.1 p.2 ls) →
    stripPairs ps (joinl ls) = joinl ls := by
  intro ps
  induction ps with
  | nil =>
    intro ls _ _ _ _
    rfl
  | cons p ps' ih =>
    intro ls hmk hnf hgp hnm
    obtain ⟨hs1, hs2, hs3, hs4⟩ := hmk p (List.mem_cons_self _ _)
    obtain ⟨ls1, heq1, -, -, hid⟩ :=
      stripGo_outcome hs1 hs2 hs3 hs4 ls hnf (hgp p (List.mem_cons_self _ _))
    have hls1 : ls1 = ls := hid (hnm p (List.mem_cons_self _ _))
    show stripPairs ps' (stripGo p.1 p.2 (joinl ls)) = joinl ls
    rw [heq1, hls1]
    exact ih ls (fun q hq => hmk q (List.mem_cons_of_mem _ hq)) hnf
      (fun q hq => hgp q (List.mem_cons_of_mem _ hq))
      (fun q hq => hnm q (List.mem_cons_of_mem _ hq))

/-- C4: refuted as stated — the cleanup pass is not idempotent on every
file content.  On a file whose lines are two copies of the `// A_START`
marker line, two copies of the `// A_END` marker line and a trailing
empty line, the first pass matches the first start marker against the
first end marker (lazy capture) and leaves one matching pair behind,
which the second pass then removes. -/
theorem C4_cleanup_cex :
    cleanupFile [['A']]
        (cleanupFile [['A']]
          (joinl [['/', '/', ' ', 'A', '_', 'S', 'T', 'A', 'R', 'T'],
          ['/', '/', ' ', 'A', '_', 'S', 'T', 'A', 'R', 'T'],
          ['/', '/', ' ', 'A', '_', 'E', 'N', 'D'],
          ['/', '/', ' ', 'A', '_', 'E', 'N', 'D'], []])) ≠
      cleanupFile [['A']]
        (joinl [['/', '/', ' ', 'A', '_', 'S', 'T', 'A', 'R', 'T'],
          ['/', '/', ' ', 'A', '_', 'S', 'T', 'A', 'R', 'T'],
          ['/', '/', ' ', 'A', '_', 'E', 'N', 'D'],
          ['/', '/', ' ', 'A', '_', 'E', 'N', 'D'], []]) := by
  have hcf : ∀ c : List Char, cleanupFile [['A']] c =
      stripGo (startMarker MStyle.hash ['A']) (endMarker MStyle.hash ['A'])
        (stripGo (startMarker MStyle.jsx ['A']) (endMarker MStyle.jsx ['A'])
          (stripGo (startMarker MStyle.slash ['A'])
            (endMarker MStyle.slash ['A']) c)) :=
    fun c => rfl
  have e1 : stripGo (startMarker MStyle.slash ['A'])
      (endMarker MStyle.slash ['A'])
      (joinl [['/', '/', ' ', 'A', '_', 'S', 'T', 'A', 'R', 'T'],
          ['/', '/', ' ', 'A', '_', 'S', 'T', 'A', 'R', 'T'],
          ['/', '/', ' ', 'A', '_', 'E', 'N', 'D'],
          ['/', '/', ' ', 'A', '_', 'E', 'N', 'D'], []]) = joinl [['/', '/', ' ', 'A', '_', 'S', 'T', 'A', 'R', 'T'], ['/', '/', ' ', 'A', '_', 'E', 'N', 'D'], []] :=
    stripGo_strip_mid (by decide) (by decide) [] ['/', '/', ' ', 'A', '_', 'S', 'T', 'A', 'R', 'T']
      [['/', '/', ' ', 'A', '_', 'S', 'T', 'A', 'R', 'T']] ['/', '/', ' ', 'A', '_', 'E', 'N', 'D'] [['/', '/', ' ', 'A', '_', 'E', 'N', 'D'], []]
      (by simp only [NlFree]; decide) (by decide) (by decide) (by decide)
      (by decide) (by decide) (by decide)
  have e2 : stripGo (startMarker MStyle.jsx ['A'])
      (endMarker MStyle.jsx ['A'])
      (joinl [['/', '/', ' ', 'A', '_', 'S', 'T', 'A', 'R', 'T'], ['/', '/', ' ', 'A', '_', 'E', 'N', 'D'], []]) = joinl [['/', '/', ' ', 'A', '_', 'S', 'T', 'A', 'R', 'T'], ['/', '/', ' ', 'A', '_', 'E', 'N', 'D'], []] :=
    stripGo_absent (by decide) [['/', '/', ' ', 'A', '_', 'S', 'T', 'A', 'R', 'T'], ['/', '/', ' ', 'A', '_', 'E', 'N', 'D'], []]
      (by simp only [NlFree]; decide) (by decide)
  have e3 : stripGo (startMarker MStyle.hash ['A'])
      (endMarker MStyle.hash ['A'])
      (joinl [['/', '/', ' ', 'A', '_', 'S', 'T', 'A', 'R', 'T'], ['/', '/', ' ', 'A', '_', 'E', 'N', 'D'], []]) = joinl [['/', '/', ' ', 'A', '_', 'S', 'T', 'A', 'R', 'T'], ['/', '/', ' ', 'A', '_', 'E', 'N', 'D'], []] :=
    stripGo_absent (by decide) [['/', '/', ' ', 'A', '_', 'S', 'T', 'A', 'R', 'T'], ['/', '/', ' ', 'A', '_', 'E', 'N', 'D'], []]
      (by simp only [NlFree]; decide) (by decide)
  have h1 : cleanupFile [['A']]
      (joinl [['/', '/', ' ', 'A', '_', 'S', 'T', 'A', 'R', 'T'],
          ['/', '/', ' ', 'A', '_', 'S', 'T', 'A', 'R', 'T'],
          ['/', '/', ' ', 'A', '_', 'E', 'N', 'D'],
          ['/', '/', ' ', 'A', '_', 'E', 'N', 'D'], []]) = joinl [['/', '/', ' ', 'A', '_', 'S', 'T', 'A', 'R', 'T'], ['/', '/', ' ', 'A', '_', 'E', 'N', 'D'], []] := by
    rw [hcf, e1, e2, e3]
  have f1 : stripGo (startMarker MStyle.slash ['A'])
      (endMarker MStyle.slash ['A'])
      (joinl [['/', '/', ' ', 'A', '_', 'S', 'T', 'A', 'R', 'T'], ['/', '/', ' ', 'A', '_', 'E', 'N', 'D'], []]) = joinl [[]] :=
    stripGo_strip_mid (by decide) (by decide) [] ['/', '/', ' ', 'A', '_', 'S', 'T', 'A', 'R', 'T']
      [] ['/', '/', ' ', 'A', '_', 'E', 'N', 'D'] [[]]
      (by simp only [NlFree]; decide) (by decide) (by decide) (by decide)
      (by decide) (by decide) (by decide)
  have f2 : stripGo (startMarker MStyle.jsx ['A'])
      (endMarker MStyle.jsx ['A'])
      (joinl [[]]) = joinl [[]] :=
    stripGo_absent (by decide) [[]]
      (by simp only [NlFree]; decide) (by decide)
  have f3 : stripGo (startMarker MStyle.hash ['A'])
      (endMarker MStyle.hash ['A'])
      (joinl [[]]) = joinl [[]] :=
    stripGo_absent (by decide) [[]]
      (by simp only [NlFree]; decide) (by decide)
  have h2 : cleanupFile [['A']]
      (joinl [['/', '/', ' ', 'A', '_', 'S', 'T', 'A', 'R', 'T'], ['/', '/', ' ', 'A', '_', 'E', 'N', 'D'], []]) = joinl [[]] := by
    rw [hcf, f1, f2, f3]
  rw [h1, h2]
  decide

/-- C4 (amended): the cleanup pass is idempotent on marker-disciplined
files — newline-free lines where, for every section name in the cleanup
set and every comment style, any line containing a marker is exactly an
indented marker line and each marker occurs on at most one line. -/
theorem C4_cleanup_amended (names : List (List Char))
    (ls : List (List Char)) (h : GoodFile names ls) :
    cleanupFile names (cleanupFile names (joinl ls)) =
      cleanupFile names (joinl ls) := by
  obtain ⟨hnf, hnames⟩ := h
  have hmk : ∀ p ∈ pairsOf names, p.1 ≠ [] ∧ p.2 ≠ [] ∧
      (∀ c ∈ p.1, c ≠ '\n') ∧ (∀ c ∈ p.2, c ≠ '\n') := by
    intro p hp
    obtain ⟨n, hn, σ, rfl⟩ := mem_pairsOf hp
    refine ⟨?m1, ?m2, ?m3, ?m4⟩
    · exact marker_ne_nil n _ (by cases σ <;> simp [allMarkers])
    · exact marker_ne_nil n _ (by cases σ <;> simp [allMarkers])
    · exact startMarker_nl_free (hnames n hn).1 σ
    · exact endMarker_nl_free (hnames n hn).1 σ
  have hgp : ∀ p ∈ pairsOf names, GoodPair p.1 p.2 ls := by
    intro p hp
    obtain ⟨n, hn, σ, rfl⟩ := mem_pairsOf hp
    exact (hnames n hn).2 σ
  simp only [cleanupFile_eq_stripPairs]
  obtain ⟨ls1, pads, heq1, hp, hsub, hnm⟩ :=
    stripPairs_outcome (pairsOf names) ls hmk hnf hgp
  rw [heq1]
  exact stripPairs_id (pairsOf names) ls1 hmk
    (NlFree_of_sub hsub hp hnf)
    (fun q hq => GoodPair_of_sub (hmk q hq).1 (hmk q hq).2.1 hsub hp
      (hgp q hq))
    hnm

/-- Witness for C4 amended: a concrete well-formed file with one
`//`-style pair for section `A`. -/
theorem C4_cleanup_amended_witness :
    GoodFile [['A']] [['x'], ['/', '/', ' ', 'A', '_', 'S', 'T', 'A', 'R', 'T'], ['m'], ['/', '/', ' ', 'A', '_', 'E', 'N', 'D'], []] ∧
      cleanupFile [['A']]
          (cleanupFile [['A']]
            (joinl [['x'], ['/', '/', ' ', 'A', '_', 'S', 'T', 'A', 'R', 'T'], ['m'], ['/', '/', ' ', 'A', '_', 'E', 'N', 'D'], []])) =
        cleanupFile [['A']]
          (joinl [['x'], ['/', '/', ' ', 'A', '_', 'S', 'T', 'A', 'R', 'T'], ['m'], ['/', '/', ' ', 'A', '_', 'E', 'N', 'D'], []]) :=
  ⟨by simp only [GoodFile, GoodPair, NlFree]; decide,
   C4_cleanup_amended [['A']] [['x'], ['/', '/', ' ', 'A', '_', 'S', 'T', 'A', 'R', 'T'], ['m'], ['/', '/', ' ', 'A', '_', 'E', 'N', 'D'], []]
     (by simp only [GoodFile, GoodPair, NlFree]; decide)⟩

theorem stripName_strip (n : List Char) (hn : ∀ c ∈ n, c ≠ '\n')
    (σ : MStyle) (X : List (List Char)) (s : List Char)
    (M : List (List Char)) (e : List Char) (R : List (List Char))
    (hnf : NlFree (X ++ s :: (M ++ e :: R)))
    (hXs : ∀ l ∈ X, SectionReplacer.containsSub (startMarker σ n) l = false)
    (hs : s.dropWhile spaceTab = startMarker σ n)
    (hMe : ∀ l ∈ M, SectionReplacer.containsSub (endMarker σ n) l = false)
    (he : e.dropWhile spaceTab = endMarker σ n)
    (hRs : ∀ l ∈ R, SectionReplacer.containsSub (startMarker σ n) l = false)
    (hR : R ≠ [])
    (hoth : ∀ σ' : MStyle, σ' ≠ σ → ∀ l ∈ X ++ s :: (M ++ e :: R),
      SectionReplacer.containsSub (startMarker σ' n) l = false) :
    stripName n (joinl (X ++ s :: (M ++ e :: R))) =
      joinl (X ++ M ++ R) := by
  have hnf' : NlFree (X ++ M ++ R) := NlFree_of_subset
    (by
      intro x hx
      simp only [List.append_assoc, List.mem_append, List.mem_cons] at hx ⊢
      tauto) hnf
  have hoth' : ∀ σ' : MStyle, σ' ≠ σ → ∀ l ∈ X ++ M ++ R,
      SectionReplacer.containsSub (startMarker σ' n) l = false := by
    intro σ' hne l hl
    apply hoth σ' hne
    simp only [List.append_assoc, List.mem_append, List.mem_cons] at hl ⊢
    tauto
  have hstrip : stripGo (startMarker σ n) (endMarker σ n)
      (joinl (X ++ s :: (M ++ e :: R))) = joinl (X ++ M ++ R) :=
    stripGo_strip_mid (startMarker_nl_free hn σ) (endMarker_nl_free hn σ)
      X s M e R hnf hXs hs hMe he hRs hR
  rw [stripName]
  cases σ with
  | slash =>
    rw [hstrip]
    rw [stripGo_absent (startMarker_nl_free hn MStyle.jsx) _ hnf'
      (hoth' MStyle.jsx (by decide))]
    rw [stripGo_absent (startMarker_nl_free hn MStyle.hash) _ hnf'
      (hoth' MStyle.hash (by decide))]
  | jsx =>
    rw [stripGo_absent (startMarker_nl_free hn MStyle.slash) _ hnf
      (hoth MStyle.slash (by decide))]
    rw [hstrip]
    rw [stripGo_absent (startMarker_nl_free hn MStyle.hash) _ hnf'
      (hoth' MStyle.hash (by decide))]
  | hash =>
    rw [stripGo_absent (startMarker_nl_free hn MStyle.slash) _ hnf
      (hoth MStyle.slash (by decide))]
    rw [stripGo_absent (startMarker_nl_free hn MStyle.jsx) _ hnf
      (hoth MStyle.jsx (by decide))]
    rw [hstrip]

/-- C5: refuted as stated — when the file does not end with a newline
after the third end-marker line, the `\n?` of the cleanup pattern
matches nothing there, the marker line's own newline (the one before it)
survives as a trailing newline, and the resulting line count is the
original minus five, not minus six. -/
theorem C5_cleanup_cex :
    (VariantConfig.splitCharAux '\n'
        (cleanupFile [['A'], ['B'], ['C']]
          (joinl [['/', '/', ' ', 'A', '_', 'S', 'T', 'A', 'R', 'T'], ['x'], ['/', '/', ' ', 'A', '_', 'E', 'N', 'D'], ['{', '/', '*', ' ', 'B', '_', 'S', 'T', 'A', 'R', 'T', ' ', '*', '/', '}'], ['y'], ['{', '/', '*', ' ', 'B', '_', 'E', 'N', 'D', ' ', '*', '/', '}'], ['#', ' ', 'C', '_', 'S', 'T', 'A', 'R', 'T'], ['z'], ['#', ' ', 'C', '_', 'E', 'N', 'D']]))).length ≠
      (VariantConfig.splitCharAux '\n'
        (joinl [['/', '/', ' ', 'A', '_', 'S', 'T', 'A', 'R', 'T'], ['x'], ['/', '/', ' ', 'A', '_', 'E', 'N', 'D'], ['{', '/', '*', ' ', 'B', '_', 'S', 'T', 'A', 'R', 'T', ' ', '*', '/', '}'], ['y'], ['{', '/', '*', ' ', 'B', '_', 'E', 'N', 'D', ' ', '*', '/', '}'], ['#', ' ', 'C', '_', 'S', 'T', 'A', 'R', 'T'], ['z'], ['#', ' ', 'C', '_', 'E', 'N', 'D']])).length - 6 := by
  have st1 : stripName ['A'] (joinl [['/', '/', ' ', 'A', '_', 'S', 'T', 'A', 'R', 'T'], ['x'], ['/', '/', ' ', 'A', '_', 'E', 'N', 'D'], ['{', '/', '*', ' ', 'B', '_', 'S', 'T', 'A', 'R', 'T', ' ', '*', '/', '}'], ['y'], ['{', '/', '*', ' ', 'B', '_', 'E', 'N', 'D', ' ', '*', '/', '}'], ['#', ' ', 'C', '_', 'S', 'T', 'A', 'R', 'T'], ['z'], ['#', ' ', 'C', '_', 'E', 'N', 'D']]) = joinl [['x'], ['{', '/', '*', ' ', 'B', '_', 'S', 'T', 'A', 'R', 'T', ' ', '*', '/', '}'], ['y'], ['{', '/', '*', ' ', 'B', '_', 'E', 'N', 'D', ' ', '*', '/', '}'], ['#', ' ', 'C', '_', 'S', 'T', 'A', 'R', 'T'], ['z'], ['#', ' ', 'C', '_', 'E', 'N', 'D']] :=
    stripName_strip ['A'] (by decide) MStyle.slash [] ['/', '/', ' ', 'A', '_', 'S', 'T', 'A', 'R', 'T']
      [['x']] ['/', '/', ' ', 'A', '_', 'E', 'N', 'D']
      [['{', '/', '*', ' ', 'B', '_', 'S', 'T', 'A', 'R', 'T', ' ', '*', '/', '}'], ['y'], ['{', '/', '*', ' ', 'B', '_', 'E', 'N', 'D', ' ', '*', '/', '}'], ['#', ' ', 'C', '_', 'S', 'T', 'A', 'R', 'T'], ['z'], ['#', ' ', 'C', '_', 'E', 'N', 'D']]
      (by simp only [NlFree]; decide) (by decide) (by decide) (by decide)
      (by decide) (by decide) (by decide) (by decide)
  have st2 : stripName ['B'] (joinl [['x'], ['{', '/', '*', ' ', 'B', '_', 'S', 'T', 'A', 'R', 'T', ' ', '*', '/', '}'], ['y'], ['{', '/', '*', ' ', 'B', '_', 'E', 'N', 'D', ' ', '*', '/', '}'], ['#', ' ', 'C', '_', 'S', 'T', 'A', 'R', 'T'], ['z'], ['#', ' ', 'C', '_', 'E', 'N', 'D']]) = joinl [['x'], ['y'], ['#', ' ', 'C', '_', 'S', 'T', 'A', 'R', 'T'], ['z'], ['#', ' ', 'C', '_', 'E', 'N', 'D']] :=
    stripName_strip ['B'] (by decide) MStyle.jsx [['x']] ['{', '/', '*', ' ', 'B', '_', 'S', 'T', 'A', 'R', 'T', ' ', '*', '/', '}']
      [['y']] ['{', '/', '*', ' ', 'B', '_', 'E', 'N', 'D', ' ', '*', '/', '}'] [['#', ' ', 'C', '_', 'S', 'T', 'A', 'R', 'T'], ['z'], ['#', ' ', 'C', '_', 'E', 'N', 'D']]
      (by simp only [NlFree]; decide) (by decide) (by decide) (by decide)
      (by decide) (by decide) (by decide) (by decide)
  have g1 : stripGo (startMarker MStyle.slash ['C'])
      (endMarker MStyle.slash ['C'])
      (joinl [['x'], ['y'], ['#', ' ', 'C', '_', 'S', 'T', 'A', 'R', 'T'], ['z'], ['#', ' ', 'C', '_', 'E', 'N', 'D']]) = joinl [['x'], ['y'], ['#', ' ', 'C', '_', 'S', 'T', 'A', 'R', 'T'], ['z'], ['#', ' ', 'C', '_', 'E', 'N', 'D']] :=
    stripGo_absent (by decide) [['x'], ['y'], ['#', ' ', 'C', '_', 'S', 'T', 'A', 'R', 'T'], ['z'], ['#', ' ', 'C', '_', 'E', 'N', 'D']]
      (by simp only [NlFree]; decide) (by decide)
  have g2 : stripGo (startMarker MStyle.jsx ['C'])
      (endMarker MStyle.jsx ['C'])
      (joinl [['x'], ['y'], ['#', ' ', 'C', '_', 'S', 'T', 'A', 'R', 'T'], ['z'], ['#', ' ', 'C', '_', 'E', 'N', 'D']]) = joinl [['x'], ['y'], ['#', ' ', 'C', '_', 'S', 'T', 'A', 'R', 'T'], ['z'], ['#', ' ', 'C', '_', 'E', 'N', 'D']] :=
    stripGo_absent (by decide) [['x'], ['y'], ['#', ' ', 'C', '_', 'S', 'T', 'A', 'R', 'T'], ['z'], ['#', ' ', 'C', '_', 'E', 'N', 'D']]
      (by simp only [NlFree]; decide) (by decide)
  have g3 : stripGo (startMarker MStyle.hash ['C'])
      (endMarker MStyle.hash ['C'])
      (joinl [['x'], ['y'], ['#', ' ', 'C', '_', 'S', 'T', 'A', 'R', 'T'], ['z'], ['#', ' ', 'C', '_', 'E', 'N', 'D']]) = joinl [['x'], ['y'], ['z'], []] :=
    stripGo_strip_eof (by decide) (by decide) [['x'], ['y']] ['#', ' ', 'C', '_', 'S', 'T', 'A', 'R', 'T']
      [['z']] ['#', ' ', 'C', '_', 'E', 'N', 'D']
      (by simp only [NlFree]; decide) (by decide) (by decide) (by decide)
      (by decide)
  have st3 : stripName ['C'] (joinl [['x'], ['y'], ['#', ' ', 'C', '_', 'S', 'T', 'A', 'R', 'T'], ['z'], ['#', ' ', 'C', '_', 'E', 'N', 'D']]) =
      joinl [['x'], ['y'], ['z'], []] := by
    rw [stripName, g1, g2, g3]
  have hcf : cleanupFile [['A'], ['B'], ['C']]
      (joinl [['/', '/', ' ', 'A', '_', 'S', 'T', 'A', 'R', 'T'], ['x'], ['/', '/', ' ', 'A', '_', 'E', 'N', 'D'], ['{', '/', '*', ' ', 'B', '_', 'S', 'T', 'A', 'R', 'T', ' ', '*', '/', '}'], ['y'], ['{', '/', '*', ' ', 'B', '_', 'E', 'N', 'D', ' ', '*', '/', '}'], ['#', ' ', 'C', '_', 'S', 'T', 'A', 'R', 'T'], ['z'], ['#', ' ', 'C', '_', 'E', 'N', 'D']]) =
      stripName ['C'] (stripName ['B'] (stripName ['A']
        (joinl [['/', '/', ' ', 'A', '_', 'S', 'T', 'A', 'R', 'T'], ['x'], ['/', '/', ' ', 'A', '_', 'E', 'N', 'D'], ['{', '/', '*', ' ', 'B', '_', 'S', 'T', 'A', 'R', 'T', ' ', '*', '/', '}'], ['y'], ['{', '/', '*', ' ', 'B', '_', 'E', 'N', 'D', ' ', '*', '/', '}'], ['#', ' ', 'C', '_', 'S', 'T', 'A', 'R', 'T'], ['z'], ['#', ' ', 'C', '_', 'E', 'N', 'D']]))) := rfl
  rw [hcf, st1, st2, st3]
  decide

set_option maxHeartbeats 2000000 in
/-- C5 (amended): for a newline-free-line file containing exactly one
marker pair in each of the three comment styles for three section names
(`//` for the first, JSX for the second, `#` for the third), where each
present marker occurs on at most one line, the start markers of the six
unused style–name combinations occur nowhere, and the third end-marker
line is followed by at least one further line (equivalently, it is
newline-terminated), stripping all three names removes exactly the six
marker lines — the resulting line list is the original minus those six
lines, keeping every enclosed line byte-identical — so the line count
drops by exactly six. -/
theorem C5_cleanup_amended (n1 n2 n3 : List Char)
    (P0 M1 P1 M2 P2 M3 P3 : List (List Char))
    (s1 e1 s2 e2 s3 e3 : List Char) (ls : List (List Char))
    (hls : ls = P0 ++ s1 :: (M1 ++ e1 :: (P1 ++ s2 :: (M2 ++ e2 :: (P2 ++ s3 :: (M3 ++ e3 :: P3))))))
    (hnf : NlFree ls)
    (hn1 : ∀ c ∈ n1, c ≠ '\n') (hn2 : ∀ c ∈ n2, c ≠ '\n')
    (hn3 : ∀ c ∈ n3, c ≠ '\n')
    (hs1 : s1.dropWhile spaceTab = startMarker MStyle.slash n1)
    (he1 : e1.dropWhile spaceTab = endMarker MStyle.slash n1)
    (hs2 : s2.dropWhile spaceTab = startMarker MStyle.jsx n2)
    (he2 : e2.dropWhile spaceTab = endMarker MStyle.jsx n2)
    (hs3 : s3.dropWhile spaceTab = startMarker MStyle.hash n3)
    (he3 : e3.dropWhile spaceTab = endMarker MStyle.hash n3)
    (hu1 : ls.countP (fun l =>
      SectionReplacer.containsSub (startMarker MStyle.slash n1) l) ≤ 1)
    (hu2 : ls.countP (fun l =>
      SectionReplacer.containsSub (endMarker MStyle.slash n1) l) ≤ 1)
    (hu3 : ls.countP (fun l =>
      SectionReplacer.containsSub (startMarker MStyle.jsx n2) l) ≤ 1)
    (hu4 : ls.countP (fun l =>
      SectionReplacer.containsSub (endMarker MStyle.jsx n2) l) ≤ 1)
    (hu5 : ls.countP (fun l =>
      SectionReplacer.containsSub (startMarker MStyle.hash n3) l) ≤ 1)
    (hu6 : ls.countP (fun l =>
      SectionReplacer.containsSub (endMarker MStyle.hash n3) l) ≤ 1)
    (habs : ∀ m ∈ [startMarker MStyle.jsx n1, startMarker MStyle.hash n1,
      startMarker MStyle.slash n2, startMarker MStyle.hash n2,
      startMarker MStyle.slash n3, startMarker MStyle.jsx n3],
      ∀ l ∈ ls, SectionReplacer.containsSub m l = false)
    (hP3 : P3 ≠ []) :
    cleanupFile [n1, n2, n3] (joinl ls) =
      joinl (P0 ++ M1 ++ P1 ++ M2 ++ P2 ++ M3 ++ P3) ∧
    (P0 ++ M1 ++ P1 ++ M2 ++ P2 ++ M3 ++ P3).length + 6 = ls.length := by
  subst hls
  refine ⟨?eq, ?len⟩
  case len =>
    simp only [List.length_append, List.length_cons]
    omega
  case eq =>
    have hc1 : SectionReplacer.containsSub (startMarker MStyle.slash n1)
        s1 = true :=
      containsSub_of_prefix_dropWhile (by
        rw [hs1]
        exact List.isPrefixOf_iff_prefix.mpr (List.prefix_refl _))
    have hc2 : SectionReplacer.containsSub (endMarker MStyle.slash n1)
        e1 = true :=
      containsSub_of_prefix_dropWhile (by
        rw [he1]
        exact List.isPrefixOf_iff_prefix.mpr (List.prefix_refl _))
    have hc3 : SectionReplacer.containsSub (startMarker MStyle.jsx n2)
        s2 = true :=
      containsSub_of_prefix_dropWhile (by
        rw [hs2]
        exact List.isPrefixOf_iff_prefix.mpr (List.prefix_refl _))
    have hc4 : SectionReplacer.containsSub (endMarker MStyle.jsx n2)
        e2 = true :=
      containsSub_of_prefix_dropWhile (by
        rw [he2]
        exact List.isPrefixOf_iff_prefix.mpr (List.prefix_refl _))
    have hc5 : SectionReplacer.containsSub (startMarker MStyle.hash n3)
        s3 = true :=
      containsSub_of_prefix_dropWhile (by
        rw [hs3]
        exact List.isPrefixOf_iff_prefix.mpr (List.prefix_refl _))
    have hc6 : SectionReplacer.containsSub (endMarker MStyle.hash n3)
        e3 = true :=
      containsSub_of_prefix_dropWhile (by
        rw [he3]
        exact List.isPrefixOf_iff_prefix.mpr (List.prefix_refl _))
    have hsp1 := countP_le_one_split hu1 (X := P0)
      (Z := M1 ++ e1 :: (P1 ++ s2 :: (M2 ++ e2 :: (P2 ++ s3 :: (M3 ++ e3 :: P3))))) rfl hc1
    have hsp2 := countP_le_one_split hu2 (X := P0 ++ s1 :: M1)
      (Z := P1 ++ s2 :: (M2 ++ e2 :: (P2 ++ s3 :: (M3 ++ e3 :: P3)))) (by simp) hc2
    have hsp3 := countP_le_one_split hu3
      (X := P0 ++ s1 :: (M1 ++ e1 :: P1))
      (Z := M2 ++ e2 :: (P2 ++ s3 :: (M3 ++ e3 :: P3))) (by simp) hc3
    have hsp4 := countP_le_one_split hu4
      (X := P0 ++ s1 :: (M1 ++ e1 :: (P1 ++ s2 :: M2)))
      (Z := P2 ++ s3 :: (M3 ++ e3 :: P3)) (by simp) hc4
    have hsp5 := countP_le_one_split hu5
      (X := P0 ++ s1 :: (M1 ++ e1 :: (P1 ++ s2 :: (M2 ++ e2 :: P2))))
      (Z := M3 ++ e3 :: P3) (by simp) hc5
    have hsp6 := countP_le_one_split hu6
      (X := P0 ++ s1 :: (M1 ++ e1 :: (P1 ++ s2 :: (M2 ++ e2 ::
        (P2 ++ s3 :: M3)))))
      (Z := P3) (by simp) hc6
    have st1 : stripName n1 (joinl (P0 ++ s1 :: (M1 ++ e1 :: (P1 ++ s2 :: (M2 ++ e2 :: (P2 ++ s3 :: (M3 ++ e3 :: P3))))))) =
        joinl (P0 ++ M1 ++ (P1 ++ s2 :: (M2 ++ e2 :: (P2 ++ s3 :: (M3 ++ e3 :: P3))))) := by
      apply stripName_strip n1 hn1 MStyle.slash P0 s1 M1 e1 (P1 ++ s2 :: (M2 ++ e2 :: (P2 ++ s3 :: (M3 ++ e3 :: P3)))) hnf
        hsp1.1 hs1
      · intro l hl
        exact hsp2.1 l (by
          simp only [List.append_assoc, List.mem_append, List.mem_cons]
            at hl ⊢
          tauto)
      · exact he1
      · intro l hl
        exact hsp1.2 l (by
          simp only [List.append_assoc, List.mem_append, List.mem_cons]
            at hl ⊢
          tauto)
      · simp
      · intro σ' hne l hl
        cases σ' with
        | slash => exact absurd rfl hne
        | jsx => exact habs (startMarker MStyle.jsx n1) (by simp) l hl
        | hash => exact habs (startMarker MStyle.hash n1) (by simp) l hl
    have hb1 : P0 ++ M1 ++ (P1 ++ s2 :: (M2 ++ e2 :: (P2 ++ s3 :: (M3 ++ e3 :: P3)))) =
        (P0 ++ M1 ++ P1) ++ s2 :: (M2 ++ e2 :: (P2 ++ s3 :: (M3 ++ e3 :: P3))) := by simp
    have st2 : stripName n2
        (joinl ((P0 ++ M1 ++ P1) ++ s2 :: (M2 ++ e2 :: (P2 ++ s3 :: (M3 ++ e3 :: P3))))) =
        joinl ((P0 ++ M1 ++ P1) ++ M2 ++ (P2 ++ s3 :: (M3 ++ e3 :: P3))) := by
      apply stripName_strip n2 hn2 MStyle.jsx (P0 ++ M1 ++ P1) s2 M2 e2 (P2 ++ s3 :: (M3 ++ e3 :: P3))
      · exact NlFree_of_subset (by
          intro x hx
          simp only [List.append_assoc, List.mem_append, List.mem_cons]
            at hx ⊢
          tauto) hnf
      · intro l hl
        exact hsp3.1 l (by
          simp only [List.append_assoc, List.mem_append, List.mem_cons]
            at hl ⊢
          tauto)
      · exact hs2
      · intro l hl
        exact hsp4.1 l (by
          simp only [List.append_assoc, List.mem_append, List.mem_cons]
            at hl ⊢
          tauto)
      · exact he2
      · intro l hl
        exact hsp3.2 l (by
          simp only [List.append_assoc, List.mem_append, List.mem_cons]
            at hl ⊢
          tauto)
      · simp
      · intro σ' hne l hl
        have hm : l ∈ P0 ++ s1 :: (M1 ++ e1 :: (P1 ++ s2 :: (M2 ++ e2 :: (P2 ++ s3 :: (M3 ++ e3 :: P3))))) := by
          simp only [List.append_assoc, List.mem_append, List.mem_cons]
            at hl ⊢
          tauto
        cases σ' with
        | slash => exact habs (startMarker MStyle.slash n2) (by simp) l hm
        | jsx => exact absurd rfl hne
        | hash => exact habs (startMarker MStyle.hash n2) (by simp) l hm
    have hb2 : (P0 ++ M1 ++ P1) ++ M2 ++ (P2 ++ s3 :: (M3 ++ e3 :: P3)) =
        (P0 ++ M1 ++ P1 ++ M2 ++ P2) ++ s3 :: (M3 ++ e3 :: P3) := by simp
    have st3 : stripName n3
        (joinl ((P0 ++ M1 ++ P1 ++ M2 ++ P2) ++ s3 :: (M3 ++ e3 :: P3))) =
        joinl ((P0 ++ M1 ++ P1 ++ M2 ++ P2) ++ M3 ++ P3) := by
      apply stripName_strip n3 hn3 MStyle.hash (P0 ++ M1 ++ P1 ++ M2 ++ P2) s3 M3 e3 P3
      · exact NlFree_of_subset (by
          intro x hx
          simp only [List.append_assoc, List.mem_append, List.mem_cons]
            at hx ⊢
          tauto) hnf
      · intro l hl
        exact hsp5.1 l (by
          simp only [List.append_assoc, List.mem_append, List.mem_cons]
            at hl ⊢
          tauto)
      · exact hs3
      · intro l hl
        exact hsp6.1 l (by
          simp only [List.append_assoc, List.mem_append, List.mem_cons]
            at hl ⊢
          tauto)
      · exact he3
      · intro l hl
        exact hsp5.2 l (by
          simp only [List.append_assoc, List.mem_append, List.mem_cons]
            at hl ⊢
          tauto)
      · exact hP3
      · intro σ' hne l hl
        have hm : l ∈ P0 ++ s1 :: (M1 ++ e1 :: (P1 ++ s2 :: (M2 ++ e2 :: (P2 ++ s3 :: (M3 ++ e3 :: P3))))) := by
          simp only [List.append_assoc, List.mem_append, List.mem_cons]
            at hl ⊢
          tauto
        cases σ' with
        | slash => exact habs (startMarker MStyle.slash n3) (by simp) l hm
        | jsx => exact habs (startMarker MStyle.jsx n3) (by simp) l hm
        | hash => exact absurd rfl hne
    have hcf : cleanupFile [n1, n2, n3] (joinl (P0 ++ s1 :: (M1 ++ e1 :: (P1 ++ s2 :: (M2 ++ e2 :: (P2 ++ s3 :: (M3 ++ e3 :: P3))))))) =
        stripName n3 (stripName n2 (stripName n1 (joinl (P0 ++ s1 :: (M1 ++ e1 :: (P1 ++ s2 :: (M2 ++ e2 :: (P2 ++ s3 :: (M3 ++ e3 :: P3))))))))) := rfl
    rw [hcf, st1, hb1, st2, hb2, st3]

/-- Witness for C5 amended: the three-pair file with a trailing newline;
the cleanup drops exactly the six marker lines. -/
theorem C5_cleanup_amended_witness :
    cleanupFile [['A'], ['B'], ['C']]
        (joinl [['/', '/', ' ', 'A', '_', 'S', 'T', 'A', 'R', 'T'], ['x'], ['/', '/', ' ', 'A', '_', 'E', 'N', 'D'], ['{', '/', '*', ' ', 'B', '_', 'S', 'T', 'A', 'R', 'T', ' ', '*', '/', '}'], ['y'], ['{', '/', '*', ' ', 'B', '_', 'E', 'N', 'D', ' ', '*', '/', '}'], ['#', ' ', 'C', '_', 'S', 'T', 'A', 'R', 'T'], ['z'], ['#', ' ', 'C', '_', 'E', 'N', 'D'], []]) =
      joinl ([] ++ [['x']] ++ [] ++ [['y']] ++ [] ++ [['z']] ++ [[]]) ∧
    ([] ++ [['x']] ++ [] ++ [['y']] ++ [] ++ [['z']] ++ [[]]).length + 6 =
      ([['/', '/', ' ', 'A', '_', 'S', 'T', 'A', 'R', 'T'], ['x'], ['/', '/', ' ', 'A', '_', 'E', 'N', 'D'], ['{', '/', '*', ' ', 'B', '_', 'S', 'T', 'A', 'R', 'T', ' ', '*', '/', '}'], ['y'], ['{', '/', '*', ' ', 'B', '_', 'E', 'N', 'D', ' ', '*', '/', '}'], ['#', ' ', 'C', '_', 'S', 'T', 'A', 'R', 'T'], ['z'], ['#', ' ', 'C', '_', 'E', 'N', 'D'], []] : List (List Char)).length :=
  C5_cleanup_amended ['A'] ['B'] ['C']
    [] [['x']] [] [['y']] [] [['z']] [[]]
    ['/', '/', ' ', 'A', '_', 'S', 'T', 'A', 'R', 'T'] ['/', '/', ' ', 'A', '_', 'E', 'N', 'D']
    ['{', '/', '*', ' ', 'B', '_', 'S', 'T', 'A', 'R', 'T', ' ', '*', '/', '}'] ['{', '/', '*', ' ', 'B', '_', 'E', 'N', 'D', ' ', '*', '/', '}']
    ['#', ' ', 'C', '_', 'S', 'T', 'A', 'R', 'T'] ['#', ' ', 'C', '_', 'E', 'N', 'D']
    [['/', '/', ' ', 'A', '_', 'S', 'T', 'A', 'R', 'T'], ['x'], ['/', '/', ' ', 'A', '_', 'E', 'N', 'D'], ['{', '/', '*', ' ', 'B', '_', 'S', 'T', 'A', 'R', 'T', ' ', '*', '/', '}'], ['y'], ['{', '/', '*', ' ', 'B', '_', 'E', 'N', 'D', ' ', '*', '/', '}'], ['#', ' ', 'C', '_', 'S', 'T', 'A', 'R', 'T'], ['z'], ['#', ' ', 'C', '_', 'E', 'N', 'D'], []]
    rfl (by simp only [NlFree]; decide) (by decide) (by decide) (by decide)
    (by decide) (by decide) (by decide) (by decide) (by decide) (by decide)
    (by decide) (by decide) (by decide) (by decide) (by decide) (by decide)
    (by decide) (by decide)

end LaunchFrame
